import Mathlib

/-
Verification of the dynamic physical-plan execution layer of a distributed
DataFrame engine (daft).

The development shallowly embeds the generators of
src/daft/execution/physical_plan.py, the optimizer rules of
src/daft/logical/optimizer.py and the optimizer configuration of
src/daft/runners/dynamic_runner.py.

Modelling conventions, used throughout:
  - A physical plan is an iterator of items; an item is an open
    PartitionTaskBuilder, an already finalized PartitionTask, or None
    (a suspension).  Items are modelled as inductive event types; one run of a
    generator is modelled as the list of events it yields.
  - Task completion is asynchronous.  Every call the generator makes to a
    done() method is modelled as consulting an oracle (a function from a tick
    counter to Bool) which is universally quantified in all theorems, so the
    theorems cover every possible completion schedule.
  - Generator loops that are driven by completions do not structurally
    terminate; runs are bounded by an explicit fuel parameter and theorems
    about completed runs are conditioned on the run finishing within its fuel.
  - Machine integers of the source are modelled as Int where the source can go
    negative (limits, remaining-partition counters) and as Nat where it
    cannot (row counts, indices).
-/

/-! ## Items of an in-progress physical plan

An in-progress physical plan yields PartitionTaskBuilder (open, still accepts
instruction fusion), PartitionTask (finalized) or None (suspension).  The tag
identifies the underlying partition so that distinct items can be told apart. -/

inductive PlanItem where
  | openBuilder (tag : Nat)
  | finalizedTask (tag : Nat)
  | suspendItem
deriving DecidableEq

/-! ## file_write and enumerate_open_executions (physical_plan.py) -/

/-- Embedding of enumerate_open_executions: like enumerate on an iterator, but
the index counts up only after a PartitionTaskBuilder; all other items are
paired with the current index unchanged. -/
def enumerate_open_executions : Nat → List PlanItem → List (Nat × PlanItem)
  | _, [] => []
  | index, .openBuilder t :: rest =>
      (index, .openBuilder t) :: enumerate_open_executions (index + 1) rest
  | index, item :: rest => (index, item) :: enumerate_open_executions index rest

/-- Output items of file_write: an open builder into which
WriteFile(partition_id=index) was fused, or a passed-through item. -/
inductive WriteItem where
  | writeBuilder (tag : Nat) (partition_id : Nat)
  | finalizedTask (tag : Nat)
  | suspendItem
deriving DecidableEq

/-- Fuse a WriteFile(partition_id=index) instruction into an open builder;
pass other items through. -/
def toWriteItem (p : Nat × PlanItem) : WriteItem :=
  match p.2 with
  | .openBuilder t => .writeBuilder t p.1
  | .finalizedTask t => .finalizedTask t
  | .suspendItem => .suspendItem

/-- Embedding of file_write: fuse a WriteFile instruction carrying the open
execution index into every open builder of the child plan; pass everything
else through unchanged. -/
def file_write (child_plan : List PlanItem) : List WriteItem :=
  (enumerate_open_executions 0 child_plan).map toWriteItem

/-- The partition_id values carried by WriteFile instructions, in emission
order. -/
def writeIds (out : List WriteItem) : List Nat :=
  out.filterMap fun
    | .writeBuilder _ i => some i
    | _ => none

/-- Number of open builders in a child plan item list. -/
def openCount (items : List PlanItem) : Nat :=
  items.countP fun
    | .openBuilder _ => true
    | _ => false

/-- Forget the WriteFile instruction fused by file_write, recovering the child
item. -/
def WriteItem.eraseWrite : WriteItem → PlanItem
  | .writeBuilder t _ => .openBuilder t
  | .finalizedTask t => .finalizedTask t
  | .suspendItem => .suspendItem

theorem file_write_aux (start : Nat) (items : List PlanItem) :
    writeIds ((enumerate_open_executions start items).map toWriteItem)
        = List.range' start (openCount items) ∧
    ((enumerate_open_executions start items).map toWriteItem).map
        WriteItem.eraseWrite = items := by
  induction items generalizing start with
  | nil => simp [enumerate_open_executions, openCount, writeIds]
  | cons hd tl ih =>
    cases hd with
    | openBuilder t =>
      obtain ⟨ih1, ih2⟩ := ih (start + 1)
      constructor
      · simp only [enumerate_open_executions, List.map_cons, writeIds,
          List.filterMap_cons, toWriteItem, openCount, List.countP_cons,
          if_true] at ih1 ⊢
        rw [List.range'_succ]
        simpa using ih1
      · simp only [enumerate_open_executions, List.map_cons, toWriteItem,
          WriteItem.eraseWrite] at ih2 ⊢
        simpa using ih2
    | finalizedTask t =>
      obtain ⟨ih1, ih2⟩ := ih start
      constructor
      · simp only [enumerate_open_executions, List.map_cons, writeIds,
          List.filterMap_cons, toWriteItem, openCount, List.countP_cons] at ih1 ⊢
        simpa using ih1
      · simp only [enumerate_open_executions, List.map_cons, toWriteItem,
          WriteItem.eraseWrite] at ih2 ⊢
        simpa using ih2
    | suspendItem =>
      obtain ⟨ih1, ih2⟩ := ih start
      constructor
      · simp only [enumerate_open_executions, List.map_cons, writeIds,
          List.filterMap_cons, toWriteItem, openCount, List.countP_cons] at ih1 ⊢
        simpa using ih1
      · simp only [enumerate_open_executions, List.map_cons, toWriteItem,
          WriteItem.eraseWrite] at ih2 ⊢
        simpa using ih2

/-- C10: the WriteFile instructions emitted by file_write carry partition_id
values exactly 0, 1, 2, ... in emission order, counting only open builders;
suspensions and already-finalized tasks are passed through unchanged (erasing
the fused WriteFile instruction recovers the child stream item by item), so
the assigned ids are consecutive and unique regardless of interleaving. -/
theorem c10_file_write_partition_ids (items : List PlanItem) :
    writeIds (file_write items) = List.range (openCount items) ∧
    (file_write items).map WriteItem.eraseWrite = items := by
  have h := file_write_aux 0 items
  constructor
  · rw [List.range_eq_range']
    exact h.1
  · exact h.2

/-! ## Optimizer configuration (dynamic_runner.py) -/

/-- Names of the optimizer rules referenced by DynamicRunner. -/
inductive RuleName where
  | DropRepartition
  | PushDownPredicates
  | PruneColumns
  | FoldProjections
  | PushDownClausesIntoScan
  | PushDownLimit
  | DropProjections
deriving DecidableEq

/-- A rule batch policy: Once, or FixedPointPolicy with an iteration cap. -/
inductive BatchPolicy where
  | Once
  | FixedPointPolicy (numRuns : Nat)
deriving DecidableEq

/-- A named batch of optimizer rules with its policy. -/
structure RuleBatch where
  name : String
  policy : BatchPolicy
  rules : List RuleName
deriving DecidableEq

/-- Embedding of the optimizer configuration constructed in
DynamicRunner.__init__ (dynamic_runner.py): the list of rule batches, in
order, with their policies and rule lists. -/
def dynamicRunnerRuleBatches : List RuleBatch :=
  [⟨"SinglePassPushDowns", .Once,
      [.DropRepartition, .PushDownPredicates, .PruneColumns, .FoldProjections,
       .PushDownClausesIntoScan]⟩,
   ⟨"PushDownLimitsAndRepartitions", .FixedPointPolicy 3,
      [.PushDownLimit, .DropRepartition, .DropProjections]⟩]

/-- Modelled from the spec claim wording: the two batches as claim C4 states
them, with FoldProjections as the third rule of the second batch. -/
def claimedRuleBatchesC4 : List RuleBatch :=
  [⟨"SinglePassPushDowns", .Once,
      [.DropRepartition, .PushDownPredicates, .PruneColumns, .FoldProjections,
       .PushDownClausesIntoScan]⟩,
   ⟨"PushDownLimitsAndRepartitions", .FixedPointPolicy 3,
      [.PushDownLimit, .DropRepartition, .FoldProjections]⟩]

/-- C4 counterexample: the optimizer configuration of DynamicRunner is not the
one the claim states; the third rule of the PushDownLimitsAndRepartitions
batch is DropProjections in the source, not FoldProjections. -/
theorem c4_counterexample :
    dynamicRunnerRuleBatches ≠ claimedRuleBatchesC4 ∧
    (dynamicRunnerRuleBatches.getD 1 ⟨"", .Once, []⟩).rules.getD 2 .PushDownLimit
      = .DropProjections := by
  constructor
  · decide
  · rfl

/-- Amended C4, as claim C4 but with DropProjections as the third rule of the
second batch: the optimizer applies exactly two rule batches in order, a batch
named SinglePassPushDowns with the Once policy containing DropRepartition,
PushDownPredicates, PruneColumns, FoldProjections, PushDownClausesIntoScan,
then a batch named PushDownLimitsAndRepartitions with a fixed-point policy
capped at 3 iterations containing PushDownLimit, DropRepartition,
DropProjections. -/
theorem c4_amended :
    dynamicRunnerRuleBatches =
      [⟨"SinglePassPushDowns", .Once,
          [.DropRepartition, .PushDownPredicates, .PruneColumns,
           .FoldProjections, .PushDownClausesIntoScan]⟩,
       ⟨"PushDownLimitsAndRepartitions", .FixedPointPolicy 3,
          [.PushDownLimit, .DropRepartition, .DropProjections]⟩] := rfl

/-! ## global_limit (physical_plan.py)

The child of global_limit is first wrapped in local_limit(remaining_rows); the
value sent back into local_limit after every yield is the current value of
remaining_rows, so the LocalLimit instruction fused into a child builder at
pull time carries the remaining row count at that moment.  The claim's
hypotheses are built in: a partition of r raw rows materialized under
LocalLimit(l) completes with min l r rows, and completion metadata reports
that row count.

An item of the raw child stream is either a builder for one output partition
of the child (with its raw row count) or any other item (an already finalized
task of the child, or None), which global_limit forwards unchanged. -/

inductive ChildItem where
  | builder (rows : Nat)
  | other
deriving DecidableEq

/-- Events observable in one run of global_limit: a finalized materialization
task for child partition idx (fused LocalLimit(limit), raw rows), a forwarded
child item, a yielded None, or an output builder applying LocalLimit(take) to
the completed partition src whose materialized row count is srcRows. -/
inductive GLEvent where
  | childTask (idx limit rows : Nat)
  | passthrough
  | suspendEvent
  | output (src take srcRows : Nat)
deriving DecidableEq

/-- An entry of the materializations deque: partition index, the LocalLimit
fused at pull time, and the raw child row count.  It completes with
min limit rows rows. -/
structure GLQueueEntry where
  idx : Nat
  limit : Nat
  rows : Nat
deriving DecidableEq

inductive GLStatus where
  | finished
  | finishedEarly
  | assertFailed
  | outOfFuel
deriving DecidableEq

/-- Result of a run: the yielded events in order, the indices of the tasks
cancelled (in cancellation order), and how the run ended.  finishedEarly is
the return out of the remaining_rows == 0 branch; finished is the return
after exhausting the child and the deque. -/
structure GLResult where
  trace : List GLEvent
  cancelled : List Nat
  status : GLStatus
deriving DecidableEq

def GLResult.consEvent (e : GLEvent) (r : GLResult) : GLResult :=
  ⟨e :: r.trace, r.cancelled, r.status⟩

structure GLState where
  remaining : Nat
  remainingParts : Int
  queue : List GLQueueEntry
  pending : List ChildItem
  nextIdx : Nat
  clock : Nat

/-- Advance the done-oracle tick counter. -/
def GLState.tick (st : GLState) : GLState :=
  ⟨st.remaining, st.remainingParts, st.queue, st.pending, st.nextIdx,
   st.clock + 1⟩

/-- The row budget applied to a completed partition:
limit = remaining_rows and min(remaining_rows, num_rows) where the completed
partition holds min limit rows rows. -/
def glTake (remaining limit rows : Nat) : Nat :=
  if remaining = 0 then 0 else min remaining (min limit rows)

/-- One run of the global_limit generator loop, bounded by fuel.  Each
iteration mirrors the source loop: if the front of the deque is done (as
reported by the oracle), pop it, emit the output builder, deduct the rolling
limit, and on reaching zero cancel the outstanding deque (popping from the
right) and emit LocalLimit(0) reuses of the just-completed partition for
every remaining output partition index; otherwise yield None when the limit
is exhausted but the deque is not, else pull one child step (finalizing
builders into the deque) and forward it, yielding None or returning when the
child is exhausted. -/
def glRun (oracle : Nat → Bool) : Nat → GLState → GLResult
  | 0, _ => ⟨[], [], .outOfFuel⟩
  | fuel + 1, st =>
    match st.queue with
    | e :: rest =>
      if oracle st.clock then
        if st.remaining - glTake st.remaining e.limit e.rows = 0 then
          ⟨.output e.idx (glTake st.remaining e.limit e.rows)
                (min e.limit e.rows) ::
              List.replicate (st.remainingParts - 1).toNat
                (.output e.idx 0 (min e.limit e.rows)),
           rest.reverse.map GLQueueEntry.idx, .finishedEarly⟩
        else
          GLResult.consEvent
            (.output e.idx (glTake st.remaining e.limit e.rows)
              (min e.limit e.rows))
            (glRun oracle fuel
              ⟨st.remaining - glTake st.remaining e.limit e.rows,
               st.remainingParts - 1, rest, st.pending, st.nextIdx,
               st.clock + 1⟩)
      else
        if st.remaining = 0 then
          GLResult.consEvent .suspendEvent (glRun oracle fuel st.tick)
        else
          match st.pending with
          | .builder r :: restPending =>
              GLResult.consEvent (.childTask st.nextIdx st.remaining r)
                (glRun oracle fuel
                  ⟨st.remaining, st.remainingParts,
                   (e :: rest) ++ [⟨st.nextIdx, st.remaining, r⟩],
                   restPending, st.nextIdx + 1, st.clock + 1⟩)
          | .other :: restPending =>
              GLResult.consEvent .passthrough
                (glRun oracle fuel
                  ⟨st.remaining, st.remainingParts, e :: rest, restPending,
                   st.nextIdx, st.clock + 1⟩)
          | [] =>
              GLResult.consEvent .suspendEvent (glRun oracle fuel st.tick)
    | [] =>
      match st.pending with
      | .builder r :: restPending =>
          GLResult.consEvent (.childTask st.nextIdx st.remaining r)
            (glRun oracle fuel
              ⟨st.remaining, st.remainingParts,
               [⟨st.nextIdx, st.remaining, r⟩], restPending, st.nextIdx + 1,
               st.clock⟩)
      | .other :: restPending =>
          GLResult.consEvent .passthrough
            (glRun oracle fuel
              ⟨st.remaining, st.remainingParts, [], restPending, st.nextIdx,
               st.clock⟩)
      | [] => ⟨[], [], .finished⟩

/-- Embedding of global_limit: assert the limit is nonnegative on the first
poll, then run the loop from the initial state. -/
def global_limit (oracle : Nat → Bool) (fuel : Nat) (num : Int)
    (numParts : Nat) (child : List ChildItem) : GLResult :=
  if num < 0 then ⟨[], [], .assertFailed⟩
  else glRun oracle fuel ⟨num.toNat, (numParts : Int), [], child, 0, 0⟩

/-- Rows held by the partition an output builder produces: LocalLimit(take)
over a partition of srcRows rows yields min take srcRows rows. -/
def GLEvent.outputRows : GLEvent → Nat
  | .output _ take srcRows => min take srcRows
  | _ => 0

def traceOutputRows (tr : List GLEvent) : Nat := (tr.map GLEvent.outputRows).sum

def ChildItem.rowsOf : ChildItem → Nat
  | .builder r => r
  | .other => 0

/-- Total raw rows of the child plan's output partitions. -/
def childRows (child : List ChildItem) : Nat := (child.map ChildItem.rowsOf).sum

def ChildItem.isBuilder : ChildItem → Bool
  | .builder _ => true
  | .other => false

def builderCount (child : List ChildItem) : Nat := child.countP ChildItem.isBuilder

def GLStatus.isDone : GLStatus → Bool
  | .finished => true
  | .finishedEarly => true
  | _ => false

def queueRows (q : List GLQueueEntry) : Nat := (q.map GLQueueEntry.rows).sum

/-- Rows yet to flow out of a state: raw rows in the deque plus raw rows of
still-unpulled child builders. -/
def GLState.futureRows (st : GLState) : Nat :=
  queueRows st.queue + childRows st.pending

def GLEvent.isOutput : GLEvent → Bool
  | .output _ _ _ => true
  | _ => false

def outputCount (tr : List GLEvent) : Nat := tr.countP GLEvent.isOutput

def childTaskIdxs (tr : List GLEvent) : List Nat :=
  tr.filterMap fun
    | .childTask i _ _ => some i
    | _ => none

def outputSrcs (tr : List GLEvent) : List Nat :=
  tr.filterMap fun
    | .output s _ _ => some s
    | _ => none

def outputEvents (tr : List GLEvent) : List GLEvent := tr.filter GLEvent.isOutput

theorem traceOutputRows_cons (e : GLEvent) (tr : List GLEvent) :
    traceOutputRows (e :: tr) = e.outputRows + traceOutputRows tr := by
  simp [traceOutputRows]

theorem traceOutputRows_replicate_zero (k : Nat) (s r : Nat) :
    traceOutputRows (List.replicate k (GLEvent.output s 0 r)) = 0 := by
  induction k with
  | zero => simp [traceOutputRows]
  | succ k ih =>
      rw [List.replicate_succ, traceOutputRows_cons, ih]
      simp [GLEvent.outputRows]

theorem glTake_of_le (remaining limit rows : Nat) (h : remaining ≤ limit) :
    glTake remaining limit rows = min remaining rows := by
  unfold glTake
  by_cases h0 : remaining = 0
  · subst h0
    simp
  · rw [if_neg h0, ← Nat.min_assoc, Nat.min_eq_left h]

theorem glTake_le_srcRows (remaining limit rows : Nat) :
    glTake remaining limit rows ≤ min limit rows := by
  unfold glTake
  by_cases h0 : remaining = 0
  · simp [h0]
  · rw [if_neg h0]
    exact Nat.min_le_right _ _

theorem glMinLemma (a b c : Nat) : min a b + min (a - b) c = min a (b + c) := by
  rcases Nat.le_total a b with h | h
  · rw [Nat.min_eq_left h, Nat.sub_eq_zero_of_le h, Nat.zero_min,
      Nat.min_eq_left (Nat.le_trans h (Nat.le_add_right b c))]
    omega
  · rcases Nat.le_total (a - b) c with h2 | h2
    · rw [Nat.min_eq_right h, Nat.min_eq_left h2,
        Nat.min_eq_left (by omega)]
      omega
    · rw [Nat.min_eq_right h, Nat.min_eq_right h2,
        Nat.min_eq_right (by omega)]

theorem sub_min_self_right (a b : Nat) : a - min a b = a - b := by
  rcases Nat.le_total a b with h | h
  · rw [Nat.min_eq_left h, Nat.sub_self, Nat.sub_eq_zero_of_le h]
  · rw [Nat.min_eq_right h]

/-- Row accounting invariant of the global_limit loop: starting from any state
whose deque entries all carry a fused limit at least the current remaining
row count, a run that terminates emits output builders holding exactly
min remaining (rows still to flow) rows in total. -/
theorem glRun_rows (oracle : Nat → Bool) (fuel : Nat) : ∀ (st : GLState),
    (∀ e ∈ st.queue, st.remaining ≤ e.limit) →
    ((glRun oracle fuel st).status).isDone = true →
    traceOutputRows (glRun oracle fuel st).trace
      = min st.remaining st.futureRows := by
  induction fuel with
  | zero =>
    intro st hinv hdone
    simp [glRun, GLStatus.isDone] at hdone
  | succ fuel ih =>
    intro st hinv hdone
    obtain ⟨rem, parts, queue, pending, nextIdx, clock⟩ := st
    cases queue with
    | cons e rest =>
      by_cases horacle : oracle clock = true
      · have hrem_le : rem ≤ e.limit := hinv e (by simp)
        have htake : glTake rem e.limit e.rows = min rem e.rows :=
          glTake_of_le _ _ _ hrem_le
        by_cases hearly : rem - glTake rem e.limit e.rows = 0
        · simp only [glRun, horacle, if_true, hearly, if_pos] at hdone ⊢
          rw [traceOutputRows_cons, traceOutputRows_replicate_zero]
          have hout : GLEvent.outputRows
              (.output e.idx (glTake rem e.limit e.rows) (min e.limit e.rows))
              = glTake rem e.limit e.rows := by
            simp only [GLEvent.outputRows]
            exact Nat.min_eq_left (glTake_le_srcRows _ _ _)
          rw [hout, htake]
          rw [htake, sub_min_self_right] at hearly
          have hle : rem ≤ e.rows := by omega
          simp only [GLState.futureRows, queueRows, List.map_cons,
            List.sum_cons]
          rw [Nat.min_eq_left hle, Nat.min_eq_left (by omega)]
          omega
        · simp only [glRun, horacle, if_true, hearly, if_neg, if_false,
            GLResult.consEvent] at hdone ⊢
          rw [traceOutputRows_cons]
          have hout : GLEvent.outputRows
              (.output e.idx (glTake rem e.limit e.rows) (min e.limit e.rows))
              = glTake rem e.limit e.rows := by
            simp only [GLEvent.outputRows]
            exact Nat.min_eq_left (glTake_le_srcRows _ _ _)
          rw [hout]
          have hrec := ih ⟨rem - glTake rem e.limit e.rows, parts - 1, rest,
            pending, nextIdx, clock + 1⟩
            (fun e' he' => Nat.le_trans (Nat.sub_le _ _) (hinv e' (by simp [he'])))
            hdone
          rw [hrec]
          simp only [GLState.futureRows, queueRows, List.map_cons,
            List.sum_cons]
          rw [htake, sub_min_self_right, Nat.add_assoc]
          exact glMinLemma rem e.rows _
      · by_cases hrem0 : rem = 0
        · simp only [glRun, horacle, if_false, hrem0, if_true,
            Bool.false_eq_true, GLResult.consEvent] at hdone ⊢
          have hrec := ih (GLState.tick ⟨0, parts, e :: rest, pending, nextIdx, clock⟩)
            (by intro e' he'; simp [GLState.tick]) hdone
          rw [traceOutputRows_cons, hrec]
          simp [GLEvent.outputRows, GLState.tick, GLState.futureRows]
        · cases pending with
          | nil =>
            simp only [glRun, horacle, Bool.false_eq_true, if_false, hrem0,
              GLResult.consEvent] at hdone ⊢
            have hrec := ih (GLState.tick ⟨rem, parts, e :: rest, [], nextIdx, clock⟩)
              (by intro e' he'; exact hinv e' he') hdone
            rw [traceOutputRows_cons, hrec]
            simp [GLEvent.outputRows, GLState.tick, GLState.futureRows]
          | cons c restPending =>
            cases c with
            | builder r =>
              simp only [glRun, horacle, Bool.false_eq_true, if_false, hrem0,
                GLResult.consEvent] at hdone ⊢
              have hrec := ih ⟨rem, parts,
                  (e :: rest) ++ [⟨nextIdx, rem, r⟩], restPending,
                  nextIdx + 1, clock + 1⟩
                (by
                  intro e' he'
                  simp only [List.mem_append, List.mem_singleton] at he'
                  rcases he' with he' | he'
                  · exact hinv e' he'
                  · subst he'
                    exact Nat.le_refl _) hdone
              rw [traceOutputRows_cons, hrec]
              simp only [GLEvent.outputRows, GLState.futureRows, queueRows,
                childRows, List.map_append, List.map_cons, List.sum_append,
                List.sum_cons, ChildItem.rowsOf, List.map_nil, List.sum_nil]
              omega
            | other =>
              simp only [glRun, horacle, Bool.false_eq_true, if_false, hrem0,
                GLResult.consEvent] at hdone ⊢
              have hrec := ih ⟨rem, parts, e :: rest, restPending, nextIdx,
                  clock + 1⟩ (fun e' he' => hinv e' he') hdone
              rw [traceOutputRows_cons, hrec]
              simp only [GLEvent.outputRows, GLState.futureRows, queueRows,
                childRows, List.map_cons, List.sum_cons, ChildItem.rowsOf]
              omega
    | nil =>
      cases pending with
      | nil =>
        simp only [glRun]
        simp [traceOutputRows, GLState.futureRows, queueRows, childRows]
      | cons c restPending =>
        cases c with
        | builder r =>
          simp only [glRun, GLResult.consEvent] at hdone ⊢
          have hrec := ih ⟨rem, parts, [⟨nextIdx, rem, r⟩], restPending,
              nextIdx + 1, clock⟩
            (by
              intro e' he'
              simp only [List.mem_singleton] at he'
              subst he'
              exact Nat.le_refl _) hdone
          rw [traceOutputRows_cons, hrec]
          simp only [GLEvent.outputRows, GLState.futureRows, queueRows,
            childRows, List.map_cons, List.sum_cons, ChildItem.rowsOf,
            List.map_nil, List.sum_nil]
          omega
        | other =>
          simp only [glRun, GLResult.consEvent] at hdone ⊢
          have hrec := ih ⟨rem, parts, [], restPending, nextIdx, clock⟩
            (by intro e' he'; simp at he') hdone
          rw [traceOutputRows_cons, hrec]
          simp only [GLEvent.outputRows, GLState.futureRows, queueRows,
            childRows, List.map_cons, List.sum_cons, ChildItem.rowsOf,
            List.map_nil, List.sum_nil]
          omega

/-- C1: for every child plan, completion schedule and fuel bound, and every
limit, a run of global_limit that terminates (by either return point) emits
output builders whose total row count equals the minimum of the limit and the
total raw rows of the child partitions; in particular the total never exceeds
the limit and equals it exactly when the input has at least that many rows.
The claim's hypotheses (LocalLimit(k) on r rows yields min k r rows, and
completion metadata reports correct row counts) are built into the model. -/
theorem c1_global_limit_rows (oracle : Nat → Bool) (fuel : Nat) (num : Int)
    (numParts : Nat) (child : List ChildItem)
    (hdone : ((global_limit oracle fuel num numParts child).status).isDone
      = true) :
    traceOutputRows (global_limit oracle fuel num numParts child).trace
        = min num.toNat (childRows child) ∧
    traceOutputRows (global_limit oracle fuel num numParts child).trace
        ≤ num.toNat ∧
    (num.toNat ≤ childRows child →
      traceOutputRows (global_limit oracle fuel num numParts child).trace
        = num.toNat) := by
  by_cases hneg : num < 0
  · unfold global_limit at hdone
    rw [if_pos hneg] at hdone
    simp [GLStatus.isDone] at hdone
  · unfold global_limit at hdone ⊢
    rw [if_neg hneg] at hdone ⊢
    have h := glRun_rows oracle fuel
      ⟨num.toNat, (numParts : Int), [], child, 0, 0⟩
      (by intro e he; simp at he) hdone
    simp only [GLState.futureRows, queueRows, List.map_nil, List.sum_nil,
      Nat.zero_add] at h
    refine ⟨h, ?_, ?_⟩
    · rw [h]
      exact Nat.min_le_left _ _
    · intro hle
      rw [h, Nat.min_eq_left hle]

/-- Witness for C1: limit 3 over two child partitions of 5 raw rows each,
under an always-done completion schedule, terminates and emits exactly
min 3 10 = 3 rows. -/
theorem c1_global_limit_rows_witness :
    ((global_limit (fun _ => true) 20 3 2
        [.builder 5, .builder 5]).status).isDone = true ∧
    traceOutputRows (global_limit (fun _ => true) 20 3 2
        [.builder 5, .builder 5]).trace
      = min (Int.toNat 3) (childRows [.builder 5, .builder 5]) :=
  ⟨by decide,
   (c1_global_limit_rows (fun _ => true) 20 3 2 [.builder 5, .builder 5]
      (by decide)).1⟩

theorem glRun_status_not_assert (oracle : Nat → Bool) (fuel : Nat) :
    ∀ st : GLState, (glRun oracle fuel st).status ≠ GLStatus.assertFailed := by
  induction fuel with
  | zero => intro st; simp [glRun]
  | succ fuel ih =>
    intro st
    obtain ⟨rem, parts, queue, pending, nextIdx, clock⟩ := st
    cases queue with
    | cons e rest =>
      by_cases horacle : oracle clock = true
      · by_cases hearly : rem - glTake rem e.limit e.rows = 0
        · simp [glRun, horacle, hearly]
        · simp only [glRun, horacle, if_true, hearly, if_false,
            GLResult.consEvent]
          exact ih _
      · by_cases hrem0 : rem = 0
        · simp only [glRun, horacle, Bool.false_eq_true, if_false, hrem0,
            if_true, GLResult.consEvent]
          exact ih _
        · cases pending with
          | nil =>
            simp only [glRun, horacle, Bool.false_eq_true, if_false, hrem0,
              GLResult.consEvent]
            exact ih _
          | cons c restPending =>
            cases c with
            | builder r =>
              simp only [glRun, horacle, Bool.false_eq_true, if_false, hrem0,
                GLResult.consEvent]
              exact ih _
            | other =>
              simp only [glRun, horacle, Bool.false_eq_true, if_false, hrem0,
                GLResult.consEvent]
              exact ih _
    | nil =>
      cases pending with
      | nil => simp [glRun]
      | cons c restPending =>
        cases c with
        | builder r =>
          simp only [glRun, GLResult.consEvent]
          exact ih _
        | other =>
          simp only [glRun, GLResult.consEvent]
          exact ih _

/-- C9: for a negative limit the generator fails its assertion on the first
poll, before emitting any item; for a nonnegative limit the assertion branch
is unreachable and the generator proceeds normally. -/
theorem c9_global_limit_assert (oracle : Nat → Bool) (fuel : Nat) (num : Int)
    (numParts : Nat) (child : List ChildItem) :
    (num < 0 →
      global_limit oracle fuel num numParts child
        = ⟨[], [], .assertFailed⟩) ∧
    (0 ≤ num →
      (global_limit oracle fuel num numParts child).status
        ≠ .assertFailed) := by
  constructor
  · intro h
    unfold global_limit
    rw [if_pos h]
  · intro h
    unfold global_limit
    rw [if_neg (by omega)]
    exact glRun_status_not_assert oracle fuel _

/-- Witness for C9: at limit -1 the run reports the assertion failure with an
empty trace; at limit 0 it does not. -/
theorem c9_global_limit_assert_witness :
    (global_limit (fun _ => true) 5 (-1) 1 [.builder 2]
        = ⟨[], [], .assertFailed⟩) ∧
    (global_limit (fun _ => true) 5 0 1 [.builder 2]).status
        ≠ GLStatus.assertFailed :=
  ⟨(c9_global_limit_assert (fun _ => true) 5 (-1) 1 [.builder 2]).1
      (by decide),
   (c9_global_limit_assert (fun _ => true) 5 0 1 [.builder 2]).2
      (by decide)⟩


theorem outputCount_cons_output (s t r : Nat) (tr : List GLEvent) :
    outputCount (GLEvent.output s t r :: tr) = outputCount tr + 1 := by
  simp [outputCount, List.countP_cons, GLEvent.isOutput]

theorem outputCount_cons_childTask (i l r : Nat) (tr : List GLEvent) :
    outputCount (GLEvent.childTask i l r :: tr) = outputCount tr := by
  simp [outputCount, List.countP_cons, GLEvent.isOutput]

theorem outputCount_cons_passthrough (tr : List GLEvent) :
    outputCount (GLEvent.passthrough :: tr) = outputCount tr := by
  simp [outputCount, List.countP_cons, GLEvent.isOutput]

theorem outputCount_cons_suspend (tr : List GLEvent) :
    outputCount (GLEvent.suspendEvent :: tr) = outputCount tr := by
  simp [outputCount, List.countP_cons, GLEvent.isOutput]

theorem outputCount_replicate (k s t r : Nat) :
    outputCount (List.replicate k (GLEvent.output s t r)) = k := by
  induction k with
  | zero => simp [outputCount]
  | succ k ih =>
    rw [List.replicate_succ, outputCount_cons_output, ih]

theorem outputSrcs_replicate (k s t r : Nat) :
    outputSrcs (List.replicate k (GLEvent.output s t r)) = List.replicate k s := by
  induction k with
  | zero => simp [outputSrcs]
  | succ k ih =>
    rw [List.replicate_succ, List.replicate_succ]
    simp only [outputSrcs, List.filterMap_cons] at ih ⊢
    rw [ih]

theorem outputEvents_replicate (k s t r : Nat) :
    outputEvents (List.replicate k (GLEvent.output s t r))
      = List.replicate k (GLEvent.output s t r) := by
  induction k with
  | zero => simp [outputEvents]
  | succ k ih =>
    rw [List.replicate_succ]
    simp only [outputEvents, List.filter_cons, GLEvent.isOutput] at ih ⊢
    simp only [if_true, ih]

theorem builderCount_cons_builder (r : Nat) (rest : List ChildItem) :
    builderCount (ChildItem.builder r :: rest) = builderCount rest + 1 := by
  simp [builderCount, List.countP_cons, ChildItem.isBuilder]

theorem builderCount_cons_other (rest : List ChildItem) :
    builderCount (ChildItem.other :: rest) = builderCount rest := by
  simp [builderCount, List.countP_cons, ChildItem.isBuilder]

/-- Output counting invariant: a run that returns out of the early branch has
emitted exactly remainingParts output builders, provided the deque plus the
unpulled child builders cannot outnumber the remaining output partitions. -/
theorem glRun_outputCount (oracle : Nat → Bool) (fuel : Nat) :
    ∀ st : GLState,
    ((st.queue.length : Int) + (builderCount st.pending : Int)
        ≤ st.remainingParts) →
    (glRun oracle fuel st).status = .finishedEarly →
    (outputCount (glRun oracle fuel st).trace : Int) = st.remainingParts := by
  induction fuel with
  | zero =>
    intro st hinv hearly
    simp [glRun] at hearly
  | succ fuel ih =>
    intro st hinv hearly
    obtain ⟨rem, parts, queue, pending, nextIdx, clock⟩ := st
    simp only at hinv
    cases queue with
    | cons e rest =>
      by_cases horacle : oracle clock = true
      · by_cases hzero : rem - glTake rem e.limit e.rows = 0
        · simp only [glRun, horacle, if_true, hzero, if_pos] at hearly ⊢
          rw [outputCount_cons_output, outputCount_replicate]
          simp only [List.length_cons] at hinv
          push_cast at hinv ⊢
          omega
        · simp only [glRun, horacle, if_true, hzero, if_false,
            GLResult.consEvent] at hearly ⊢
          have hinv2 : ((rest.length : Int) + (builderCount pending : Int)
              ≤ parts - 1) := by
            simp only [List.length_cons] at hinv
            push_cast at hinv ⊢
            omega
          have hrec := ih ⟨rem - glTake rem e.limit e.rows, parts - 1, rest,
              pending, nextIdx, clock + 1⟩ hinv2 hearly
          simp only at hrec
          rw [outputCount_cons_output]
          push_cast at hrec ⊢
          omega
      · by_cases hrem0 : rem = 0
        · simp only [glRun, horacle, Bool.false_eq_true, if_false, hrem0,
            if_true, GLResult.consEvent] at hearly ⊢
          have hrec := ih (GLState.tick ⟨0, parts, e :: rest, pending,
              nextIdx, clock⟩) (by simpa [GLState.tick] using hinv) hearly
          simp only [GLState.tick] at hrec
          rw [outputCount_cons_suspend]
          exact hrec
        · cases pending with
          | nil =>
            simp only [glRun, horacle, Bool.false_eq_true, if_false, hrem0,
              GLResult.consEvent] at hearly ⊢
            have hrec := ih (GLState.tick ⟨rem, parts, e :: rest, [],
                nextIdx, clock⟩) (by simpa [GLState.tick] using hinv) hearly
            simp only [GLState.tick] at hrec
            rw [outputCount_cons_suspend]
            exact hrec
          | cons c restPending =>
            cases c with
            | builder r =>
              simp only [glRun, horacle, Bool.false_eq_true, if_false, hrem0,
                GLResult.consEvent] at hearly ⊢
              have hinv2 : ((((e :: rest) ++
                    [GLQueueEntry.mk nextIdx rem r]).length : Int)
                  + (builderCount restPending : Int) ≤ parts) := by
                rw [builderCount_cons_builder] at hinv
                simp only [List.length_append, List.length_cons,
                  List.length_nil] at hinv ⊢
                push_cast at hinv ⊢
                omega
              have hrec := ih ⟨rem, parts,
                  (e :: rest) ++ [⟨nextIdx, rem, r⟩], restPending,
                  nextIdx + 1, clock + 1⟩ hinv2 hearly
              simp only at hrec
              rw [outputCount_cons_childTask]
              exact hrec
            | other =>
              simp only [glRun, horacle, Bool.false_eq_true, if_false, hrem0,
                GLResult.consEvent] at hearly ⊢
              have hinv2 : (((e :: rest).length : Int)
                  + (builderCount restPending : Int) ≤ parts) := by
                rw [builderCount_cons_other] at hinv
                exact hinv
              have hrec := ih ⟨rem, parts, e :: rest, restPending, nextIdx,
                  clock + 1⟩ hinv2 hearly
              simp only at hrec
              rw [outputCount_cons_passthrough]
              exact hrec
    | nil =>
      cases pending with
      | nil => simp [glRun] at hearly
      | cons c restPending =>
        cases c with
        | builder r =>
          simp only [glRun, GLResult.consEvent] at hearly ⊢
          have hinv2 : ((([GLQueueEntry.mk nextIdx rem r] : List GLQueueEntry).length : Int)
              + (builderCount restPending : Int) ≤ parts) := by
            rw [builderCount_cons_builder] at hinv
            simp only [List.length_cons, List.length_nil] at hinv ⊢
            push_cast at hinv ⊢
            omega
          have hrec := ih ⟨rem, parts, [⟨nextIdx, rem, r⟩], restPending,
              nextIdx + 1, clock⟩ hinv2 hearly
          simp only at hrec
          rw [outputCount_cons_childTask]
          exact hrec
        | other =>
          simp only [glRun, GLResult.consEvent] at hearly ⊢
          have hinv2 : ((([] : List GLQueueEntry).length : Int)
              + (builderCount restPending : Int) ≤ parts) := by
            rw [builderCount_cons_other] at hinv
            exact hinv
          have hrec := ih ⟨rem, parts, [], restPending, nextIdx, clock⟩
            hinv2 hearly
          simp only at hrec
          rw [outputCount_cons_passthrough]
          exact hrec

theorem childTaskIdxs_cons_output (s t r : Nat) (tr : List GLEvent) :
    childTaskIdxs (GLEvent.output s t r :: tr) = childTaskIdxs tr := by
  simp [childTaskIdxs, List.filterMap_cons]

theorem childTaskIdxs_cons_childTask (i l r : Nat) (tr : List GLEvent) :
    childTaskIdxs (GLEvent.childTask i l r :: tr) = i :: childTaskIdxs tr := by
  simp [childTaskIdxs, List.filterMap_cons]

theorem childTaskIdxs_cons_passthrough (tr : List GLEvent) :
    childTaskIdxs (GLEvent.passthrough :: tr) = childTaskIdxs tr := by
  simp [childTaskIdxs, List.filterMap_cons]

theorem childTaskIdxs_cons_suspend (tr : List GLEvent) :
    childTaskIdxs (GLEvent.suspendEvent :: tr) = childTaskIdxs tr := by
  simp [childTaskIdxs, List.filterMap_cons]

theorem childTaskIdxs_replicate_output (k s t r : Nat) :
    childTaskIdxs (List.replicate k (GLEvent.output s t r)) = [] := by
  induction k with
  | zero => simp [childTaskIdxs]
  | succ k ih => rw [List.replicate_succ, childTaskIdxs_cons_output, ih]

theorem outputSrcs_cons_output (s t r : Nat) (tr : List GLEvent) :
    outputSrcs (GLEvent.output s t r :: tr) = s :: outputSrcs tr := by
  simp [outputSrcs, List.filterMap_cons]

theorem outputSrcs_cons_childTask (i l r : Nat) (tr : List GLEvent) :
    outputSrcs (GLEvent.childTask i l r :: tr) = outputSrcs tr := by
  simp [outputSrcs, List.filterMap_cons]

theorem outputSrcs_cons_passthrough (tr : List GLEvent) :
    outputSrcs (GLEvent.passthrough :: tr) = outputSrcs tr := by
  simp [outputSrcs, List.filterMap_cons]

theorem outputSrcs_cons_suspend (tr : List GLEvent) :
    outputSrcs (GLEvent.suspendEvent :: tr) = outputSrcs tr := by
  simp [outputSrcs, List.filterMap_cons]

theorem outputEvents_cons_output (s t r : Nat) (tr : List GLEvent) :
    outputEvents (GLEvent.output s t r :: tr)
      = GLEvent.output s t r :: outputEvents tr := by
  simp [outputEvents, List.filter_cons, GLEvent.isOutput]

theorem outputEvents_cons_childTask (i l r : Nat) (tr : List GLEvent) :
    outputEvents (GLEvent.childTask i l r :: tr) = outputEvents tr := by
  simp [outputEvents, List.filter_cons, GLEvent.isOutput]

theorem outputEvents_cons_passthrough (tr : List GLEvent) :
    outputEvents (GLEvent.passthrough :: tr) = outputEvents tr := by
  simp [outputEvents, List.filter_cons, GLEvent.isOutput]

theorem outputEvents_cons_suspend (tr : List GLEvent) :
    outputEvents (GLEvent.suspendEvent :: tr) = outputEvents tr := by
  simp [outputEvents, List.filter_cons, GLEvent.isOutput]

/-- Conservation invariant: when a run returns out of the early branch, every
partition that was queued (already in the deque, or materialized as a child
task during the run) either fed an emitted output builder or was cancelled. -/
theorem glRun_conservation (oracle : Nat → Bool) (fuel : Nat) :
    ∀ st : GLState,
    (glRun oracle fuel st).status = .finishedEarly →
    ∀ i, (i ∈ st.queue.map GLQueueEntry.idx
            ∨ i ∈ childTaskIdxs (glRun oracle fuel st).trace) →
      i ∈ outputSrcs (glRun oracle fuel st).trace
        ∨ i ∈ (glRun oracle fuel st).cancelled := by
  induction fuel with
  | zero =>
    intro st hearly
    simp [glRun] at hearly
  | succ fuel ih =>
    intro st hearly i hi
    obtain ⟨rem, parts, queue, pending, nextIdx, clock⟩ := st
    cases queue with
    | cons e rest =>
      by_cases horacle : oracle clock = true
      · by_cases hzero : rem - glTake rem e.limit e.rows = 0
        · simp only [glRun, horacle, if_true, hzero, if_pos] at hearly hi ⊢
          rw [childTaskIdxs_cons_output, childTaskIdxs_replicate_output] at hi
          simp only [List.map_cons, List.mem_cons, List.not_mem_nil,
            or_false] at hi
          rcases hi with h | h
          · left
            rw [outputSrcs_cons_output]
            rw [h]
            exact List.mem_cons_self _ _
          · right
            rw [List.map_reverse, List.mem_reverse]
            exact h
        · simp only [glRun, horacle, if_true, hzero, if_false,
            GLResult.consEvent] at hearly hi ⊢
          rw [childTaskIdxs_cons_output] at hi
          simp only [List.map_cons, List.mem_cons] at hi
          rcases hi with (h | h) | h
          · left
            rw [outputSrcs_cons_output, h]
            exact List.mem_cons_self _ _
          · have := ih ⟨rem - glTake rem e.limit e.rows, parts - 1, rest,
                pending, nextIdx, clock + 1⟩ hearly i (Or.inl h)
            rw [outputSrcs_cons_output]
            rcases this with h2 | h2
            · exact Or.inl (List.mem_cons_of_mem _ h2)
            · exact Or.inr h2
          · have := ih ⟨rem - glTake rem e.limit e.rows, parts - 1, rest,
                pending, nextIdx, clock + 1⟩ hearly i (Or.inr h)
            rw [outputSrcs_cons_output]
            rcases this with h2 | h2
            · exact Or.inl (List.mem_cons_of_mem _ h2)
            · exact Or.inr h2
      · by_cases hrem0 : rem = 0
        · simp only [glRun, horacle, Bool.false_eq_true, if_false, hrem0,
            if_true, GLResult.consEvent] at hearly hi ⊢
          rw [childTaskIdxs_cons_suspend] at hi
          have := ih (GLState.tick ⟨0, parts, e :: rest, pending, nextIdx,
              clock⟩) hearly i (by simpa [GLState.tick] using hi)
          rw [outputSrcs_cons_suspend]
          simpa [GLState.tick] using this
        · cases pending with
          | nil =>
            simp only [glRun, horacle, Bool.false_eq_true, if_false, hrem0,
              GLResult.consEvent] at hearly hi ⊢
            rw [childTaskIdxs_cons_suspend] at hi
            have := ih (GLState.tick ⟨rem, parts, e :: rest, [], nextIdx,
                clock⟩) hearly i (by simpa [GLState.tick] using hi)
            rw [outputSrcs_cons_suspend]
            simpa [GLState.tick] using this
          | cons c restPending =>
            cases c with
            | builder r =>
              simp only [glRun, horacle, Bool.false_eq_true, if_false, hrem0,
                GLResult.consEvent] at hearly hi ⊢
              rw [childTaskIdxs_cons_childTask] at hi
              have harg : i ∈ ((e :: rest) ++
                    [GLQueueEntry.mk nextIdx rem r]).map GLQueueEntry.idx
                  ∨ i ∈ childTaskIdxs (glRun oracle fuel ⟨rem, parts,
                      (e :: rest) ++ [⟨nextIdx, rem, r⟩], restPending,
                      nextIdx + 1, clock + 1⟩).trace := by
                simp only [List.map_append, List.map_cons, List.map_nil,
                  List.mem_append, List.mem_cons] at hi ⊢
                rcases hi with h | h
                · rcases h with h | h
                  · exact Or.inl (Or.inl (Or.inl h))
                  · exact Or.inl (Or.inl (Or.inr h))
                · rcases h with h | h
                  · exact Or.inl (Or.inr (by simp [h]))
                  · exact Or.inr h
              have := ih ⟨rem, parts, (e :: rest) ++ [⟨nextIdx, rem, r⟩],
                  restPending, nextIdx + 1, clock + 1⟩ hearly i harg
              rw [outputSrcs_cons_childTask]
              exact this
            | other =>
              simp only [glRun, horacle, Bool.false_eq_true, if_false, hrem0,
                GLResult.consEvent] at hearly hi ⊢
              rw [childTaskIdxs_cons_passthrough] at hi
              have := ih ⟨rem, parts, e :: rest, restPending, nextIdx,
                  clock + 1⟩ hearly i hi
              rw [outputSrcs_cons_passthrough]
              exact this
    | nil =>
      cases pending with
      | nil => simp [glRun] at hearly
      | cons c restPending =>
        cases c with
        | builder r =>
          simp only [glRun, GLResult.consEvent] at hearly hi ⊢
          rw [childTaskIdxs_cons_childTask] at hi
          have harg : i ∈ ([GLQueueEntry.mk nextIdx rem r] :
                List GLQueueEntry).map GLQueueEntry.idx
              ∨ i ∈ childTaskIdxs (glRun oracle fuel ⟨rem, parts,
                  [⟨nextIdx, rem, r⟩], restPending, nextIdx + 1,
                  clock⟩).trace := by
            simp only [List.map_nil, List.not_mem_nil, false_or,
              List.mem_cons] at hi
            simp only [List.map_cons, List.map_nil, List.mem_cons]
            rcases hi with h | h
            · exact Or.inl (Or.inl h)
            · exact Or.inr h
          have := ih ⟨rem, parts, [⟨nextIdx, rem, r⟩], restPending,
              nextIdx + 1, clock⟩ hearly i harg
          rw [outputSrcs_cons_childTask]
          exact this
        | other =>
          simp only [glRun, GLResult.consEvent] at hearly hi ⊢
          rw [childTaskIdxs_cons_passthrough] at hi
          have := ih ⟨rem, parts, [], restPending, nextIdx, clock⟩ hearly i hi
          rw [outputSrcs_cons_passthrough]
          exact this

/-- Every output builder's input partition comes from the deque or from a
materialization task emitted during the run: global_limit never computes a
fresh child partition for an output. -/
theorem glRun_output_srcs (oracle : Nat → Bool) (fuel : Nat) :
    ∀ st : GLState, ∀ s, s ∈ outputSrcs (glRun oracle fuel st).trace →
      s ∈ st.queue.map GLQueueEntry.idx
        ∨ s ∈ childTaskIdxs (glRun oracle fuel st).trace := by
  induction fuel with
  | zero =>
    intro st s hs
    simp [glRun, outputSrcs] at hs
  | succ fuel ih =>
    intro st s hs
    obtain ⟨rem, parts, queue, pending, nextIdx, clock⟩ := st
    cases queue with
    | cons e rest =>
      by_cases horacle : oracle clock = true
      · by_cases hzero : rem - glTake rem e.limit e.rows = 0
        · simp only [glRun, horacle, if_true, hzero, if_pos] at hs ⊢
          rw [outputSrcs_cons_output, outputSrcs_replicate] at hs
          simp only [List.mem_cons, List.mem_replicate] at hs
          left
          simp only [List.map_cons, List.mem_cons]
          rcases hs with h | h
          · exact Or.inl h
          · exact Or.inl h.2
        · simp only [glRun, horacle, if_true, hzero, if_false,
            GLResult.consEvent] at hs ⊢
          rw [outputSrcs_cons_output] at hs
          rw [childTaskIdxs_cons_output]
          simp only [List.mem_cons] at hs
          rcases hs with h | h
          · left
            simp [h]
          · have := ih ⟨rem - glTake rem e.limit e.rows, parts - 1, rest,
                pending, nextIdx, clock + 1⟩ s h
            rcases this with h2 | h2
            · left
              simp only [List.map_cons, List.mem_cons]
              exact Or.inr h2
            · exact Or.inr h2
      · by_cases hrem0 : rem = 0
        · simp only [glRun, horacle, Bool.false_eq_true, if_false, hrem0,
            if_true, GLResult.consEvent] at hs ⊢
          rw [outputSrcs_cons_suspend] at hs
          rw [childTaskIdxs_cons_suspend]
          have := ih (GLState.tick ⟨0, parts, e :: rest, pending, nextIdx,
              clock⟩) s hs
          simpa [GLState.tick] using this
        · cases pending with
          | nil =>
            simp only [glRun, horacle, Bool.false_eq_true, if_false, hrem0,
              GLResult.consEvent] at hs ⊢
            rw [outputSrcs_cons_suspend] at hs
            rw [childTaskIdxs_cons_suspend]
            have := ih (GLState.tick ⟨rem, parts, e :: rest, [], nextIdx,
                clock⟩) s hs
            simpa [GLState.tick] using this
          | cons c restPending =>
            cases c with
            | builder r =>
              simp only [glRun, horacle, Bool.false_eq_true, if_false, hrem0,
                GLResult.consEvent] at hs ⊢
              rw [outputSrcs_cons_childTask] at hs
              rw [childTaskIdxs_cons_childTask]
              have := ih ⟨rem, parts, (e :: rest) ++ [⟨nextIdx, rem, r⟩],
                  restPending, nextIdx + 1, clock + 1⟩ s hs
              rcases this with h2 | h2
              · simp only [List.map_append, List.map_cons, List.map_nil,
                  List.mem_append, List.mem_cons, List.not_mem_nil,
                  or_false] at h2
                rcases h2 with (h2 | h2) | h2
                · left
                  simp only [List.map_cons, List.mem_cons]
                  exact Or.inl h2
                · left
                  simp only [List.map_cons, List.mem_cons]
                  exact Or.inr h2
                · right
                  simp [h2]
              · right
                simp only [List.mem_cons]
                exact Or.inr h2
            | other =>
              simp only [glRun, horacle, Bool.false_eq_true, if_false, hrem0,
                GLResult.consEvent] at hs ⊢
              rw [outputSrcs_cons_passthrough] at hs
              rw [childTaskIdxs_cons_passthrough]
              exact ih ⟨rem, parts, e :: rest, restPending, nextIdx,
                  clock + 1⟩ s hs
    | nil =>
      cases pending with
      | nil =>
        simp only [glRun] at hs
        simp [outputSrcs] at hs
      | cons c restPending =>
        cases c with
        | builder r =>
          simp only [glRun, GLResult.consEvent] at hs ⊢
          rw [outputSrcs_cons_childTask] at hs
          rw [childTaskIdxs_cons_childTask]
          have := ih ⟨rem, parts, [⟨nextIdx, rem, r⟩], restPending,
              nextIdx + 1, clock⟩ s hs
          rcases this with h2 | h2
          · simp only [List.map_cons, List.map_nil, List.mem_cons,
              List.not_mem_nil, or_false] at h2
            right
            simp [h2]
          · right
            simp only [List.mem_cons]
            exact Or.inr h2
        | other =>
          simp only [glRun, GLResult.consEvent] at hs ⊢
          rw [outputSrcs_cons_passthrough] at hs
          rw [childTaskIdxs_cons_passthrough]
          have := ih ⟨rem, parts, [], restPending, nextIdx, clock⟩ s hs
          simpa using this

/-- Tail shape invariant: a run that returns out of the early branch emits,
after some prefix of outputs, only identical LocalLimit(0) reuses of one
already-completed partition. -/
theorem glRun_tail_zero (oracle : Nat → Bool) (fuel : Nat) :
    ∀ st : GLState,
    (glRun oracle fuel st).status = .finishedEarly →
    ∃ pre k src rows, outputEvents (glRun oracle fuel st).trace
      = pre ++ List.replicate k (GLEvent.output src 0 rows) := by
  induction fuel with
  | zero =>
    intro st hearly
    simp [glRun] at hearly
  | succ fuel ih =>
    intro st hearly
    obtain ⟨rem, parts, queue, pending, nextIdx, clock⟩ := st
    cases queue with
    | cons e rest =>
      by_cases horacle : oracle clock = true
      · by_cases hzero : rem - glTake rem e.limit e.rows = 0
        · simp only [glRun, horacle, if_true, hzero, if_pos] at hearly ⊢
          refine ⟨[.output e.idx (glTake rem e.limit e.rows)
              (min e.limit e.rows)], (parts - 1).toNat, e.idx,
              min e.limit e.rows, ?_⟩
          rw [outputEvents_cons_output, outputEvents_replicate]
          rfl
        · simp only [glRun, horacle, if_true, hzero, if_false,
            GLResult.consEvent] at hearly ⊢
          obtain ⟨pre, k, src, rows, hrec⟩ := ih ⟨rem - glTake rem e.limit
              e.rows, parts - 1, rest, pending, nextIdx, clock + 1⟩ hearly
          refine ⟨.output e.idx (glTake rem e.limit e.rows)
              (min e.limit e.rows) :: pre, k, src, rows, ?_⟩
          rw [outputEvents_cons_output, hrec]
          rfl
      · by_cases hrem0 : rem = 0
        · simp only [glRun, horacle, Bool.false_eq_true, if_false, hrem0,
            if_true, GLResult.consEvent] at hearly ⊢
          obtain ⟨pre, k, src, rows, hrec⟩ := ih (GLState.tick ⟨0, parts,
              e :: rest, pending, nextIdx, clock⟩) hearly
          refine ⟨pre, k, src, rows, ?_⟩
          rw [outputEvents_cons_suspend]
          exact hrec
        · cases pending with
          | nil =>
            simp only [glRun, horacle, Bool.false_eq_true, if_false, hrem0,
              GLResult.consEvent] at hearly ⊢
            obtain ⟨pre, k, src, rows, hrec⟩ := ih (GLState.tick ⟨rem, parts,
                e :: rest, [], nextIdx, clock⟩) hearly
            refine ⟨pre, k, src, rows, ?_⟩
            rw [outputEvents_cons_suspend]
            exact hrec
          | cons c restPending =>
            cases c with
            | builder r =>
              simp only [glRun, horacle, Bool.false_eq_true, if_false, hrem0,
                GLResult.consEvent] at hearly ⊢
              obtain ⟨pre, k, src, rows, hrec⟩ := ih ⟨rem, parts,
                  (e :: rest) ++ [⟨nextIdx, rem, r⟩], restPending,
                  nextIdx + 1, clock + 1⟩ hearly
              refine ⟨pre, k, src, rows, ?_⟩
              rw [outputEvents_cons_childTask]
              exact hrec
            | other =>
              simp only [glRun, horacle, Bool.false_eq_true, if_false, hrem0,
                GLResult.consEvent] at hearly ⊢
              obtain ⟨pre, k, src, rows, hrec⟩ := ih ⟨rem, parts, e :: rest,
                  restPending, nextIdx, clock + 1⟩ hearly
              refine ⟨pre, k, src, rows, ?_⟩
              rw [outputEvents_cons_passthrough]
              exact hrec
    | nil =>
      cases pending with
      | nil => simp [glRun] at hearly
      | cons c restPending =>
        cases c with
        | builder r =>
          simp only [glRun, GLResult.consEvent] at hearly ⊢
          obtain ⟨pre, k, src, rows, hrec⟩ := ih ⟨rem, parts,
              [⟨nextIdx, rem, r⟩], restPending, nextIdx + 1, clock⟩ hearly
          refine ⟨pre, k, src, rows, ?_⟩
          rw [outputEvents_cons_childTask]
          exact hrec
        | other =>
          simp only [glRun, GLResult.consEvent] at hearly ⊢
          obtain ⟨pre, k, src, rows, hrec⟩ := ih ⟨rem, parts, [],
              restPending, nextIdx, clock⟩ hearly
          refine ⟨pre, k, src, rows, ?_⟩
          rw [outputEvents_cons_passthrough]
          exact hrec

/-- C7: when the global_limit generator's remaining row count reaches 0 with
output partitions still owed (the early-return branch), for every completion
schedule: the total number of output tasks emitted equals the plan's declared
output partition count (given that the child emits at most that many
builders); every materialization either fed an output or was cancelled, so no
in-flight materialization is left outstanding; every output reuses an
already-materialized partition, so no new child partition is computed; and
the outputs end in a run of identical LocalLimit(0) reuses of one completed
partition. -/
theorem c7_global_limit_early (oracle : Nat → Bool) (fuel : Nat) (num : Int)
    (numParts : Nat) (child : List ChildItem)
    (hb : builderCount child ≤ numParts)
    (hearly : (global_limit oracle fuel num numParts child).status
      = .finishedEarly) :
    outputCount (global_limit oracle fuel num numParts child).trace
        = numParts ∧
    (∀ i ∈ childTaskIdxs (global_limit oracle fuel num numParts child).trace,
        i ∈ outputSrcs (global_limit oracle fuel num numParts child).trace
          ∨ i ∈ (global_limit oracle fuel num numParts child).cancelled) ∧
    (∀ s ∈ outputSrcs (global_limit oracle fuel num numParts child).trace,
        s ∈ childTaskIdxs (global_limit oracle fuel num numParts child).trace) ∧
    (∃ pre k src rows,
        outputEvents (global_limit oracle fuel num numParts child).trace
          = pre ++ List.replicate k (GLEvent.output src 0 rows)) := by
  by_cases hneg : num < 0
  · unfold global_limit at hearly
    rw [if_pos hneg] at hearly
    simp at hearly
  · unfold global_limit at hearly ⊢
    rw [if_neg hneg] at hearly ⊢
    refine ⟨?_, ?_, ?_, ?_⟩
    · have h := glRun_outputCount oracle fuel
        ⟨Int.toNat num, (numParts : Int), [], child, 0, 0⟩
        (by simpa using hb) hearly
      have h2 : (outputCount (glRun oracle fuel
          ⟨Int.toNat num, (numParts : Int), [], child, 0, 0⟩).trace : Int)
          = (numParts : Int) := h
      omega
    · intro i hi
      exact glRun_conservation oracle fuel
        ⟨Int.toNat num, (numParts : Int), [], child, 0, 0⟩ hearly i
        (Or.inr hi)
    · intro s hs
      have h := glRun_output_srcs oracle fuel
        ⟨Int.toNat num, (numParts : Int), [], child, 0, 0⟩ s hs
      simpa using h
    · exact glRun_tail_zero oracle fuel
        ⟨Int.toNat num, (numParts : Int), [], child, 0, 0⟩ hearly

/-- Witness for C7: limit 3 over three declared partitions of 5 raw rows
each, with a completion schedule that lets two extra materializations start
before the first completes; the run hits the early branch, cancels them, and
still emits 3 output tasks. -/
theorem c7_global_limit_early_witness :
    builderCount [ChildItem.builder 5, .builder 5, .builder 5] ≤ 3 ∧
    (global_limit (fun n => decide (2 ≤ n)) 30 3 3
        [.builder 5, .builder 5, .builder 5]).status
      = GLStatus.finishedEarly ∧
    outputCount (global_limit (fun n => decide (2 ≤ n)) 30 3 3
        [.builder 5, .builder 5, .builder 5]).trace = 3 :=
  ⟨by decide, by decide,
   (c7_global_limit_early (fun n => decide (2 ≤ n)) 30 3 3
      [.builder 5, .builder 5, .builder 5] (by decide) (by decide)).1⟩

/-! ## coalesce (physical_plan.py)

The merges-per-output boundaries are math.ceil((coalesce_from / coalesce_to)
* i) computed in IEEE binary64 floating-point arithmetic: the true division
m / n is rounded to the nearest double (ties to even), that double is
multiplied by i with the product again rounded to the nearest double, and
math.ceil of the result is taken.  Both roundings are modelled exactly below
with dyadic rationals (a 53-bit significand and a binary exponent), which is
exact for all inputs in the binary64 normal range; partition counts are far
inside it.  Each loop iteration first checks whether the first k
queued materializations are all done (one readiness consult of the oracle per
iteration; k is the head of the merges-per-result deque), emitting a
ReduceMerge task over exactly those k partitions if so, then pulls one child
step exactly as the source loop does.  Reading the head of an empty
merges-per-result deque raises IndexError in the source; that outcome is the
indexError status. -/

inductive CoEvent where
  | childTask (idx : Nat)
  | passthrough
  | suspendEvent
  | mergeTask (inputs : List Nat)
deriving DecidableEq

inductive CoStatus where
  | finished
  | indexError
  | assertFailed
  | outOfFuel
deriving DecidableEq

structure CoResult where
  trace : List CoEvent
  status : CoStatus
deriving DecidableEq

structure CoState where
  mergesPer : List Nat
  queue : List Nat
  pending : List ChildItem
  nextIdx : Nat
  clock : Nat

def CoResult.consEvent (e : CoEvent) (r : CoResult) : CoResult :=
  ⟨e :: r.trace, r.status⟩

/-- Modelled from the spec: the exact ceiling of m * i / n, the boundary
formula the spec's coalesce invariant and claim C2 assert. -/
def coalesceStartClaimed (m n i : Nat) : Nat := (m * i + n - 1) / n

/-- Modelled from the spec: the exact-ceiling merge counts claim C2 asserts,
stops[i] - starts[i] over the exact boundaries. -/
def mergesPerResultClaimed (m n : Nat) : List Nat :=
  (List.range n).map fun i =>
    coalesceStartClaimed m n (i + 1) - coalesceStartClaimed m n i

/-- Round a / b to the nearest integer, ties to even. -/
def roundNearestEven (a b : Nat) : Nat :=
  if 2 * (a % b) < b then a / b
  else if b < 2 * (a % b) then a / b + 1
  else if a / b % 2 = 0 then a / b else a / b + 1

/-- Floor of the base-2 logarithm by structural recursion on a fuel bound,
so that it evaluates inside the kernel; natLog2 0 = natLog2 1 = 0. -/
def natLog2Aux : Nat → Nat → Nat
  | 0, _ => 0
  | fuel + 1, n => if n ≤ 1 then 0 else natLog2Aux fuel (n / 2) + 1

def natLog2 (n : Nat) : Nat := natLog2Aux n n

/-- Round the rational a / b to IEEE binary64 (round to nearest, ties to
even), returned exactly as a dyadic s * 2 ^ e with 2 ^ 52 <= s < 2 ^ 53 for
a nonzero result.  The exponent d is the exact floor of log2 (a / b); the
quotient scaled into [2 ^ 52, 2 ^ 53) is rounded to an integer, and a carry
to 2 ^ 53 renormalizes.  Subnormals and overflow are not modelled; partition
counts keep every value far inside the normal range. -/
def floatOfRat (a b : Nat) : Nat × Int :=
  if a = 0 ∨ b = 0 then (0, 0)
  else
    let la := natLog2 a
    let lb := natLog2 b
    let d : Int :=
      if b * 2 ^ la ≤ a * 2 ^ lb then (la : Int) - lb else (la : Int) - lb - 1
    let e : Int := d - 52
    let s :=
      if 0 ≤ e then roundNearestEven a (b * 2 ^ e.toNat)
      else roundNearestEven (a * 2 ^ (-e).toNat) b
    if s = 2 ^ 53 then (2 ^ 52, e + 1) else (s, e)

/-- Multiply a binary64 value (as an exact dyadic) by a small natural number
and round the product back to binary64: the exact integer product of the
significand is kept when it fits in 53 bits and otherwise rounded to nearest,
ties to even, with a carry renormalized.  This is the binary64 product
v * float(i) with float(i) exact (i below 2 ^ 53). -/
def floatMulNat (f : Nat × Int) (i : Nat) : Nat × Int :=
  if f.1 * i = 0 then (0, 0)
  else
    let dp := natLog2 (f.1 * i)
    if dp ≤ 52 then (f.1 * i, f.2)
    else
      let s := roundNearestEven (f.1 * i) (2 ^ (dp - 52))
      if s = 2 ^ 53 then (2 ^ 52, f.2 + (dp - 52) + 1)
      else (s, f.2 + (dp - 52))

/-- math.ceil of a nonnegative dyadic binary64 value. -/
def floatCeil (f : Nat × Int) : Nat :=
  if 0 ≤ f.2 then f.1 * 2 ^ f.2.toNat
  else (f.1 + 2 ^ (-f.2).toNat - 1) / 2 ^ (-f.2).toNat

/-- Embedding of math.ceil((coalesce_from / coalesce_to) * i) as the source
computes it: binary64 division, binary64 multiplication by i, ceiling. -/
def coalesceStartFloat (m n i : Nat) : Nat :=
  floatCeil (floatMulNat (floatOfRat m n) i)

/-- Embedding of merges_per_result (physical_plan.py:300-303): for each
output partition, the number of input partitions merged into it,
stops[i] - starts[i] over the float boundaries. -/
def floatMergesPerResult (m n : Nat) : List Nat :=
  (List.range n).map fun i =>
    coalesceStartFloat m n (i + 1) - coalesceStartFloat m n i

/-- One run of the coalesce generator loop, bounded by fuel.  Per iteration:
read the head k of the merges-per-result deque (IndexError when empty); if
the first k materializations are all done, emit their ReduceMerge task and
pop them; then pull a single child step, finalizing builders into the FIFO
deque, yielding None when the child is exhausted but materializations remain,
and returning when both are exhausted. -/
def coRun (oracle : Nat → Bool) : Nat → CoState → CoResult
  | 0, _ => ⟨[], .outOfFuel⟩
  | fuel + 1, st =>
    match st.mergesPer with
    | [] => ⟨[], .indexError⟩
    | k :: ks =>
      if k ≤ st.queue.length ∧ (k = 0 ∨ oracle st.clock = true) then
        match st.pending with
        | .builder _ :: restPending =>
            CoResult.consEvent (.mergeTask (st.queue.take k))
              (CoResult.consEvent (.childTask st.nextIdx)
                (coRun oracle fuel
                  ⟨ks, st.queue.drop k ++ [st.nextIdx], restPending,
                   st.nextIdx + 1, st.clock + 1⟩))
        | .other :: restPending =>
            CoResult.consEvent (.mergeTask (st.queue.take k))
              (CoResult.consEvent .passthrough
                (coRun oracle fuel
                  ⟨ks, st.queue.drop k, restPending, st.nextIdx,
                   st.clock + 1⟩))
        | [] =>
            if 0 < (st.queue.drop k).length then
              CoResult.consEvent (.mergeTask (st.queue.take k))
                (CoResult.consEvent .suspendEvent
                  (coRun oracle fuel
                    ⟨ks, st.queue.drop k, [], st.nextIdx, st.clock + 1⟩))
            else ⟨[.mergeTask (st.queue.take k)], .finished⟩
      else
        match st.pending with
        | .builder _ :: restPending =>
            CoResult.consEvent (.childTask st.nextIdx)
              (coRun oracle fuel
                ⟨k :: ks, st.queue ++ [st.nextIdx], restPending,
                 st.nextIdx + 1, st.clock + 1⟩)
        | .other :: restPending =>
            CoResult.consEvent .passthrough
              (coRun oracle fuel
                ⟨k :: ks, st.queue, restPending, st.nextIdx, st.clock + 1⟩)
        | [] =>
            if 0 < st.queue.length then
              CoResult.consEvent .suspendEvent
                (coRun oracle fuel
                  ⟨k :: ks, st.queue, [], st.nextIdx, st.clock + 1⟩)
            else ⟨[], .finished⟩

/-- Embedding of coalesce: assert coalesce_to <= coalesce_from, then run the
loop from the initial state with the precomputed merges-per-result deque. -/
def coalesce (oracle : Nat → Bool) (fuel : Nat) (m n : Nat)
    (child : List ChildItem) : CoResult :=
  if m < n then ⟨[], .assertFailed⟩
  else coRun oracle fuel ⟨floatMergesPerResult m n, [], child, 0, 0⟩

/-- The input partition lists of the ReduceMerge tasks, in emission order. -/
def mergeInputs (tr : List CoEvent) : List (List Nat) :=
  tr.filterMap fun
    | .mergeTask xs => some xs
    | _ => none

/-- The consecutive index ranges merged into each output, starting at a. -/
def groupRanges : Nat → List Nat → List (List Nat)
  | _, [] => []
  | a, k :: ks => List.range' a k :: groupRanges (a + k) ks

theorem mergeInputs_cons_merge (xs : List Nat) (tr : List CoEvent) :
    mergeInputs (CoEvent.mergeTask xs :: tr) = xs :: mergeInputs tr := by
  simp [mergeInputs, List.filterMap_cons]

theorem mergeInputs_cons_childTask (i : Nat) (tr : List CoEvent) :
    mergeInputs (CoEvent.childTask i :: tr) = mergeInputs tr := by
  simp [mergeInputs, List.filterMap_cons]

theorem mergeInputs_cons_passthrough (tr : List CoEvent) :
    mergeInputs (CoEvent.passthrough :: tr) = mergeInputs tr := by
  simp [mergeInputs, List.filterMap_cons]

theorem mergeInputs_cons_suspend (tr : List CoEvent) :
    mergeInputs (CoEvent.suspendEvent :: tr) = mergeInputs tr := by
  simp [mergeInputs, List.filterMap_cons]

theorem range'_take (k : Nat) : ∀ (a q : Nat), k ≤ q →
    (List.range' a q).take k = List.range' a k := by
  induction k with
  | zero => intro a q h; simp
  | succ k ih =>
    intro a q h
    cases q with
    | zero => omega
    | succ q =>
      rw [List.range'_succ, List.range'_succ, List.take_succ_cons,
        ih (a + 1) q (by omega)]

theorem range'_drop (k : Nat) : ∀ (a q : Nat), k ≤ q →
    (List.range' a q).drop k = List.range' (a + k) (q - k) := by
  induction k with
  | zero => intro a q h; simp
  | succ k ih =>
    intro a q h
    cases q with
    | zero => omega
    | succ q =>
      rw [List.range'_succ, List.drop_succ_cons, ih (a + 1) q (by omega)]
      congr 1 <;> omega

theorem sum_zero_pos_nil (ks : List Nat) (hpos : ∀ k ∈ ks, 0 < k)
    (hsum : ks.sum = 0) : ks = [] := by
  cases ks with
  | nil => rfl
  | cons k ks =>
    have := hpos k (List.mem_cons_self _ _)
    simp only [List.sum_cons] at hsum
    omega

/-- Structure invariant of the coalesce loop: from a state whose FIFO deque
holds the consecutive partition indices starting at a, a finished run emits
merge tasks whose inputs are exactly the consecutive groups cut by the
merges-per-result deque. -/
theorem coRun_merges (oracle : Nat → Bool) (fuel : Nat) :
    ∀ (st : CoState) (a q : Nat),
    st.queue = List.range' a q →
    st.nextIdx = a + q →
    q + builderCount st.pending = st.mergesPer.sum →
    (∀ k ∈ st.mergesPer, 0 < k) →
    (coRun oracle fuel st).status = .finished →
    mergeInputs (coRun oracle fuel st).trace = groupRanges a st.mergesPer := by
  induction fuel with
  | zero =>
    intro st a q hq hnext hsum hpos hfin
    simp [coRun] at hfin
  | succ fuel ih =>
    intro st a q hq hnext hsum hpos hfin
    obtain ⟨mergesPer, queue, pending, nextIdx, clock⟩ := st
    simp only at hq hnext hsum hpos hfin ⊢
    subst hq
    subst hnext
    cases mergesPer with
    | nil => simp [coRun] at hfin
    | cons k ks =>
      have hk := hpos k (List.mem_cons_self _ _)
      simp only [List.sum_cons] at hsum
      by_cases hfired : k ≤ (List.range' a q).length ∧
          (k = 0 ∨ oracle clock = true)
      · have hkq : k ≤ q := by
          have := hfired.1
          simpa using this
        cases pending with
        | cons c restPending =>
          cases c with
          | builder r =>
            simp only [coRun, if_pos hfired, CoResult.consEvent] at hfin ⊢
            rw [mergeInputs_cons_merge, mergeInputs_cons_childTask,
              range'_take k a q hkq]
            have hidx : a + q = a + k + 1 * (q - k) := by omega
            have hqueue : (List.range' a q).drop k ++ [a + q]
                = List.range' (a + k) (q - k + 1) := by
              rw [range'_drop k a q hkq, List.range'_concat, hidx]
            rw [builderCount_cons_builder] at hsum
            rw [ih ⟨ks, (List.range' a q).drop k ++ [a + q], restPending,
                a + q + 1, clock + 1⟩ (a + k) (q - k + 1) hqueue
              (by simp only; omega)
              (by simp only; omega)
              (fun k' hk' => hpos k' (List.mem_cons_of_mem _ hk')) hfin]
            rfl
          | other =>
            simp only [coRun, if_pos hfired, CoResult.consEvent] at hfin ⊢
            rw [mergeInputs_cons_merge, mergeInputs_cons_passthrough,
              range'_take k a q hkq]
            rw [builderCount_cons_other] at hsum
            rw [ih ⟨ks, (List.range' a q).drop k, restPending, a + q,
                clock + 1⟩ (a + k) (q - k) (range'_drop k a q hkq)
              (by simp only; omega)
              (by simp only; omega)
              (fun k' hk' => hpos k' (List.mem_cons_of_mem _ hk')) hfin]
            rfl
        | nil =>
          simp only [builderCount, List.countP_nil, Nat.add_zero] at hsum
          by_cases hlen : 0 < ((List.range' a q).drop k).length
          · simp only [coRun, if_pos hfired, if_pos hlen,
              CoResult.consEvent] at hfin ⊢
            rw [mergeInputs_cons_merge, mergeInputs_cons_suspend,
              range'_take k a q hkq]
            rw [ih ⟨ks, (List.range' a q).drop k, [], a + q, clock + 1⟩
                (a + k) (q - k) (range'_drop k a q hkq)
              (by simp only; omega)
              (by simp only [builderCount, List.countP_nil]; omega)
              (fun k' hk' => hpos k' (List.mem_cons_of_mem _ hk')) hfin]
            rfl
          · simp only [coRun, if_pos hfired, if_neg hlen] at hfin ⊢
            have hqk : q = k := by
              rw [range'_drop k a q hkq] at hlen
              simp only [List.length_range'] at hlen
              omega
            have hks : ks = [] := by
              apply sum_zero_pos_nil ks
                (fun k' hk' => hpos k' (List.mem_cons_of_mem _ hk'))
              omega
            subst hks
            rw [mergeInputs_cons_merge, range'_take k a q hkq]
            simp [mergeInputs, groupRanges]
      · cases pending with
        | cons c restPending =>
          cases c with
          | builder r =>
            simp only [coRun, if_neg hfired, CoResult.consEvent] at hfin ⊢
            rw [mergeInputs_cons_childTask]
            have hidx : a + q = a + 1 * q := by omega
            have hqueue : List.range' a q ++ [a + q]
                = List.range' a (q + 1) := by
              rw [List.range'_concat, hidx]
            rw [builderCount_cons_builder] at hsum
            exact ih ⟨k :: ks, List.range' a q ++ [a + q], restPending,
                a + q + 1, clock + 1⟩ a (q + 1) hqueue
              (by simp only; omega)
              (by simp only [List.sum_cons]; omega)
              hpos hfin
          | other =>
            simp only [coRun, if_neg hfired, CoResult.consEvent] at hfin ⊢
            rw [mergeInputs_cons_passthrough]
            rw [builderCount_cons_other] at hsum
            exact ih ⟨k :: ks, List.range' a q, restPending, a + q,
                clock + 1⟩ a q rfl rfl
              (by simp only [List.sum_cons]; omega)
              hpos hfin
        | nil =>
          simp only [builderCount, List.countP_nil, Nat.add_zero] at hsum
          by_cases hlen : 0 < (List.range' a q).length
          · simp only [coRun, if_neg hfired, if_pos hlen,
              CoResult.consEvent] at hfin ⊢
            rw [mergeInputs_cons_suspend]
            exact ih ⟨k :: ks, List.range' a q, [], a + q, clock + 1⟩ a q
              rfl rfl
              (by simp only [builderCount, List.countP_nil, List.sum_cons]
                  omega)
              hpos hfin
          · simp only [List.length_range'] at hlen
            omega

/-- Partial-group totals: from a state with the given merges-per-result
deque, the amounts of still-to-come input (queued plus unpulled builders)
with which the loop can reach one of the source's return statements: nothing
before an unfired group, or whole leading groups. -/
def finishTotals : List Nat → List Nat
  | [] => [0]
  | k :: ks => 0 :: (finishTotals ks).map (fun t => k + t)

theorem zero_mem_finishTotals (ks : List Nat) : 0 ∈ finishTotals ks := by
  cases ks with
  | nil => simp [finishTotals]
  | cons k ks => simp [finishTotals]

theorem builderCount_nil : builderCount [] = 0 := rfl

/-- A finished coalesce run consumes, from any state, a partial-group total
of the remaining merges-per-result deque. -/
theorem coRun_finishTotals (oracle : Nat → Bool) (fuel : Nat) :
    ∀ st : CoState,
    (coRun oracle fuel st).status = .finished →
    st.queue.length + builderCount st.pending ∈ finishTotals st.mergesPer := by
  induction fuel with
  | zero =>
    intro st h
    simp [coRun] at h
  | succ fuel ih =>
    intro st h
    obtain ⟨mergesPer, queue, pending, nextIdx, clock⟩ := st
    simp only at h ⊢
    cases mergesPer with
    | nil => simp [coRun] at h
    | cons k ks =>
      by_cases hfired : k ≤ queue.length ∧ (k = 0 ∨ oracle clock = true)
      · have hk := hfired.1
        cases pending with
        | cons c restPending =>
          cases c with
          | builder r =>
            simp only [coRun, if_pos hfired, CoResult.consEvent] at h
            have hrec := ih ⟨ks, queue.drop k ++ [nextIdx], restPending,
                nextIdx + 1, clock + 1⟩ h
            simp only [List.length_append, List.length_drop,
              List.length_cons, List.length_nil, Nat.zero_add] at hrec
            rw [builderCount_cons_builder]
            simp only [finishTotals, List.mem_cons, List.mem_map]
            right
            exact ⟨_, hrec, by omega⟩
          | other =>
            simp only [coRun, if_pos hfired, CoResult.consEvent] at h
            have hrec := ih ⟨ks, queue.drop k, restPending, nextIdx,
                clock + 1⟩ h
            simp only [List.length_drop] at hrec
            rw [builderCount_cons_other]
            simp only [finishTotals, List.mem_cons, List.mem_map]
            right
            exact ⟨_, hrec, by omega⟩
        | nil =>
          by_cases hlen : 0 < (queue.drop k).length
          · simp only [coRun, if_pos hfired, if_pos hlen,
              CoResult.consEvent] at h
            have hrec := ih ⟨ks, queue.drop k, [], nextIdx, clock + 1⟩ h
            simp only [List.length_drop, builderCount_nil,
              Nat.add_zero] at hrec
            rw [builderCount_nil]
            simp only [finishTotals, List.mem_cons, List.mem_map]
            right
            exact ⟨_, hrec, by omega⟩
          · simp only [List.length_drop] at hlen
            rw [builderCount_nil]
            simp only [finishTotals, List.mem_cons, List.mem_map]
            right
            exact ⟨0, zero_mem_finishTotals ks, by omega⟩
      · cases pending with
        | cons c restPending =>
          cases c with
          | builder r =>
            simp only [coRun, if_neg hfired, CoResult.consEvent] at h
            have hrec := ih ⟨k :: ks, queue ++ [nextIdx], restPending,
                nextIdx + 1, clock + 1⟩ h
            simp only [List.length_append, List.length_cons,
              List.length_nil, Nat.zero_add] at hrec
            rw [builderCount_cons_builder]
            have heq : queue.length + (builderCount restPending + 1)
                = queue.length + 1 + builderCount restPending := by omega
            rw [heq]
            exact hrec
          | other =>
            simp only [coRun, if_neg hfired, CoResult.consEvent] at h
            have hrec := ih ⟨k :: ks, queue, restPending, nextIdx,
                clock + 1⟩ h
            rw [builderCount_cons_other]
            exact hrec
        | nil =>
          by_cases hq : 0 < queue.length
          · simp only [coRun, if_neg hfired, if_pos hq,
              CoResult.consEvent] at h
            exact ih ⟨k :: ks, queue, [], nextIdx, clock + 1⟩ h
          · have hq0 : queue.length = 0 := by omega
            rw [builderCount_nil, hq0]
            simpa using zero_mem_finishTotals (k :: ks)

/-- When the input still to come cannot fill every remaining merge group,
the merges-per-result deque never empties and the IndexError read is
unreachable. -/
theorem coRun_no_indexError (oracle : Nat → Bool) (fuel : Nat) :
    ∀ st : CoState,
    (∀ k ∈ st.mergesPer, 0 < k) →
    st.queue.length + builderCount st.pending < st.mergesPer.sum →
    (coRun oracle fuel st).status ≠ .indexError := by
  induction fuel with
  | zero =>
    intro st hpos hlt
    simp [coRun]
  | succ fuel ih =>
    intro st hpos hlt
    obtain ⟨mergesPer, queue, pending, nextIdx, clock⟩ := st
    simp only at hpos hlt ⊢
    cases mergesPer with
    | nil =>
      simp only [List.sum_nil] at hlt
      omega
    | cons k ks =>
      simp only [List.sum_cons] at hlt
      by_cases hfired : k ≤ queue.length ∧ (k = 0 ∨ oracle clock = true)
      · have hk := hfired.1
        cases pending with
        | cons c restPending =>
          cases c with
          | builder r =>
            simp only [coRun, if_pos hfired, CoResult.consEvent]
            refine ih ⟨ks, queue.drop k ++ [nextIdx], restPending,
                nextIdx + 1, clock + 1⟩
              (fun k2 hk2 => hpos k2 (List.mem_cons_of_mem _ hk2)) ?_
            simp only [List.length_append, List.length_drop,
              List.length_cons, List.length_nil, Nat.zero_add]
            rw [builderCount_cons_builder] at hlt
            omega
          | other =>
            simp only [coRun, if_pos hfired, CoResult.consEvent]
            refine ih ⟨ks, queue.drop k, restPending, nextIdx, clock + 1⟩
              (fun k2 hk2 => hpos k2 (List.mem_cons_of_mem _ hk2)) ?_
            simp only [List.length_drop]
            rw [builderCount_cons_other] at hlt
            omega
        | nil =>
          by_cases hlen : 0 < (queue.drop k).length
          · simp only [coRun, if_pos hfired, if_pos hlen, CoResult.consEvent]
            refine ih ⟨ks, queue.drop k, [], nextIdx, clock + 1⟩
              (fun k2 hk2 => hpos k2 (List.mem_cons_of_mem _ hk2)) ?_
            simp only [List.length_drop, builderCount_nil, Nat.add_zero]
            rw [builderCount_nil] at hlt
            omega
          · simp only [coRun, if_pos hfired, if_neg hlen]
            simp
      · cases pending with
        | cons c restPending =>
          cases c with
          | builder r =>
            simp only [coRun, if_neg hfired, CoResult.consEvent]
            refine ih ⟨k :: ks, queue ++ [nextIdx], restPending,
                nextIdx + 1, clock + 1⟩ hpos ?_
            simp only [List.length_append, List.length_cons,
              List.length_nil, Nat.zero_add, List.sum_cons]
            rw [builderCount_cons_builder] at hlt
            omega
          | other =>
            simp only [coRun, if_neg hfired, CoResult.consEvent]
            refine ih ⟨k :: ks, queue, restPending, nextIdx, clock + 1⟩
              hpos ?_
            simp only [List.sum_cons]
            rw [builderCount_cons_other] at hlt
            omega
        | nil =>
          by_cases hq : 0 < queue.length
          · simp only [coRun, if_neg hfired, if_pos hq, CoResult.consEvent]
            refine ih ⟨k :: ks, queue, [], nextIdx, clock + 1⟩ hpos ?_
            simp only [List.sum_cons]
            omega
          · simp only [coRun, if_neg hfired, if_neg hq]
            simp

theorem coRun_not_assertFailed (oracle : Nat → Bool) (fuel : Nat) :
    ∀ st : CoState, (coRun oracle fuel st).status ≠ .assertFailed := by
  induction fuel with
  | zero =>
    intro st
    simp [coRun]
  | succ fuel ih =>
    intro st
    obtain ⟨mergesPer, queue, pending, nextIdx, clock⟩ := st
    cases mergesPer with
    | nil => simp [coRun]
    | cons k ks =>
      by_cases hfired : k ≤ queue.length ∧ (k = 0 ∨ oracle clock = true)
      · cases pending with
        | cons c restPending =>
          cases c with
          | builder r =>
            simp only [coRun, if_pos hfired, CoResult.consEvent]
            exact ih _
          | other =>
            simp only [coRun, if_pos hfired, CoResult.consEvent]
            exact ih _
        | nil =>
          by_cases hlen : 0 < (queue.drop k).length
          · simp only [coRun, if_pos hfired, if_pos hlen, CoResult.consEvent]
            exact ih _
          · simp only [coRun, if_pos hfired, if_neg hlen]
            simp
      · cases pending with
        | cons c restPending =>
          cases c with
          | builder r =>
            simp only [coRun, if_neg hfired, CoResult.consEvent]
            exact ih _
          | other =>
            simp only [coRun, if_neg hfired, CoResult.consEvent]
            exact ih _
        | nil =>
          by_cases hq : 0 < queue.length
          · simp only [coRun, if_neg hfired, if_pos hq, CoResult.consEvent]
            exact ih _
          · simp only [coRun, if_neg hfired, if_neg hq]
            simp

/-- C2 (code bug): the source computes the merge boundaries as
math.ceil((coalesce_from / coalesce_to) * i) in IEEE binary64 arithmetic,
which differs from the exact ceiling the claim states.  At m = 29, n = 7 the
float boundaries give merge counts [5, 4, 4, 4, 4, 4, 5] summing to 30, not
the claimed exact-ceiling counts [5, 4, 4, 4, 4, 4, 4]: the seventh merge
waits for five inputs when at most four can remain, so for every completion
schedule and fuel bound the generator never returns (it runs out of fuel in
the model), and the claimed n merge tasks are never all emitted.  At
m = 150, n = 18 the run finishes, but the float boundary at i = 15 is 126
where the exact ceiling is 125, so output 14 merges the nine inputs
117..125 instead of the claimed eight. -/
theorem c2_coalesce_float_bug :
    floatMergesPerResult 29 7 = [5, 4, 4, 4, 4, 4, 5] ∧
    (floatMergesPerResult 29 7).sum = 30 ∧
    mergesPerResultClaimed 29 7 = [5, 4, 4, 4, 4, 4, 4] ∧
    coalesceStartFloat 150 18 15 = 126 ∧
    coalesceStartClaimed 150 18 15 = 125 ∧
    (∀ (oracle : Nat → Bool) (fuel : Nat),
      (coalesce oracle fuel 29 7
          (List.replicate 29 (ChildItem.builder 0))).status
        = CoStatus.outOfFuel) ∧
    (∀ (oracle : Nat → Bool) (fuel : Nat) (child : List ChildItem),
      builderCount child = 150 →
      (coalesce oracle fuel 150 18 child).status = CoStatus.finished →
      (mergeInputs (coalesce oracle fuel 150 18 child).trace).getD 14 []
        = List.range' 117 9) := by
  refine ⟨by decide, by decide, by decide, by decide, by decide, ?_, ?_⟩
  · intro oracle fuel
    unfold coalesce
    rw [if_neg (by omega)]
    cases hst : (coRun oracle fuel
        ⟨floatMergesPerResult 29 7, [],
         List.replicate 29 (ChildItem.builder 0), 0, 0⟩).status with
    | finished =>
      have h := coRun_finishTotals oracle fuel
        ⟨floatMergesPerResult 29 7, [],
         List.replicate 29 (ChildItem.builder 0), 0, 0⟩ hst
      exact absurd h (by decide)
    | indexError =>
      exact absurd hst (coRun_no_indexError oracle fuel
        ⟨floatMergesPerResult 29 7, [],
         List.replicate 29 (ChildItem.builder 0), 0, 0⟩
        (by decide) (by decide))
    | assertFailed =>
      exact absurd hst (coRun_not_assertFailed oracle fuel _)
    | outOfFuel => rfl
  · intro oracle fuel child hbc hfin
    unfold coalesce at hfin ⊢
    rw [if_neg (by omega)] at hfin ⊢
    have h := coRun_merges oracle fuel
      ⟨floatMergesPerResult 150 18, [], child, 0, 0⟩ 0 0 rfl rfl
      (by
        simp only
        rw [Nat.zero_add, hbc]
        decide)
      (by
        show ∀ k ∈ floatMergesPerResult 150 18, 0 < k
        decide) hfin
    rw [h]
    show (groupRanges 0 (floatMergesPerResult 150 18)).getD 14 []
      = List.range' 117 9
    decide

set_option maxRecDepth 40000 in
/-- Witness for the conditional conjunct of the C2 code-bug theorem: a
concrete finished coalesce run at m = 150, n = 18 under an always-done
schedule, whose output 14 merges the nine inputs 117..125. -/
theorem c2_coalesce_float_bug_witness :
    (coalesce (fun _ => true) 400 150 18
        (List.replicate 150 (ChildItem.builder 0))).status
      = CoStatus.finished ∧
    (mergeInputs (coalesce (fun _ => true) 400 150 18
        (List.replicate 150 (ChildItem.builder 0))).trace).getD 14 []
      = List.range' 117 9 :=
  ⟨by decide, c2_coalesce_float_bug.2.2.2.2.2.2 (fun _ => true) 400
      (List.replicate 150 (ChildItem.builder 0)) (by decide) (by decide)⟩


/-! ## sort (physical_plan.py)

The sort generator runs in sequential phases: (1) materialize the child
fully, finalizing every builder as a single-output task; (2) for each source
in order, wait for it (yielding None per failed done() consult) and emit a
Sample task on it; (3) wait until every sample is done; (4) emit one reduce
task over all sample outputs carrying
ReduceToQuantiles(num_quantiles = sort_info.num_partitions(), sort_by,
descending); (5) wait until the boundaries task is done; (6) emit one
FanoutRange task per source over [boundaries, source], then reduce: finalize
all fanouts as multi-output, wait for all of them, and emit one
ReduceMergeAndSort task per output index over the i-th output of every
fanout.  With zero sources, step (6) reads inputs_to_reduce[0] from an empty
list, an IndexError. -/

structure SortInfo where
  numPartitions : Nat
  sortBy : List Nat
  descending : List Bool
deriving DecidableEq

inductive SortEvent where
  | childTask (idx : Nat)
  | passthrough
  | suspendEvent
  | sampleTask (src : Nat)
  | boundariesTask (samples : List Nat) (numQuantiles : Nat)
      (sortBy : List Nat) (descending : List Bool)
  | fanoutTask (src numOutputs : Nat)
  | reduceTask (outputIdx numInputs : Nat)
deriving DecidableEq

inductive SortStatus where
  | finished
  | indexError
  | outOfFuel
deriving DecidableEq

structure SortResult where
  trace : List SortEvent
  status : SortStatus
deriving DecidableEq

/-- Phase 1: finalize child builders as single-output source
materializations, assigning consecutive indices from the given counter, and
forward every item; returns the yielded items and the final source count. -/
def sortPhase1 : List ChildItem → Nat → List SortEvent × Nat
  | [], m => ([], m)
  | .builder _ :: rest, m =>
      let r := sortPhase1 rest (m + 1)
      (.childTask m :: r.1, r.2)
  | .other :: rest, m =>
      let r := sortPhase1 rest m
      (.passthrough :: r.1, r.2)

/-- A while-not-done wait loop: one oracle consult per iteration, yielding
None on each failed consult; returns the yielded suspensions and the next
tick, or none when fuel runs out first. -/
def waitSuspends (oracle : Nat → Bool) : Nat → Nat → Option (List SortEvent × Nat)
  | 0, _ => none
  | fuel + 1, clock =>
    if oracle clock then some ([], clock + 1)
    else
      match waitSuspends oracle fuel (clock + 1) with
      | some p => some (.suspendEvent :: p.1, p.2)
      | none => none

/-- Phase 2: for each source in order, wait until it is done and emit its
Sample task. -/
def sortPhase2 (oracle : Nat → Bool) (fuel : Nat) :
    List Nat → Nat → Option (List SortEvent × Nat)
  | [], clock => some ([], clock)
  | j :: rest, clock =>
    match waitSuspends oracle fuel clock with
    | none => none
    | some p =>
      match sortPhase2 oracle fuel rest p.2 with
      | none => none
      | some q => some (p.1 ++ .sampleTask j :: q.1, q.2)

/-- Phase 6: the range-fanout plan and its sorting reduce. -/
def sortPhase6 (oracle : Nat → Bool) (fuel : Nat) (info : SortInfo) (m : Nat)
    (clock : Nat) : List SortEvent × SortStatus :=
  match m with
  | 0 => ([], .indexError)
  | mp + 1 =>
    match waitSuspends oracle fuel clock with
    | none => ((List.range (mp + 1)).map fun j =>
        SortEvent.fanoutTask j info.numPartitions, .outOfFuel)
    | some p =>
      (((List.range (mp + 1)).map fun j =>
          SortEvent.fanoutTask j info.numPartitions)
        ++ p.1
        ++ (List.range info.numPartitions).map fun i =>
            SortEvent.reduceTask i (mp + 1), .finished)

/-- Embedding of sort: the composition of the phases.  Phase 3 consults the
oracle only when there is at least one sample to wait for, as the source's
any() over an empty sequence does not call done(). -/
def sortPlan (oracle : Nat → Bool) (fuel : Nat) (info : SortInfo)
    (child : List ChildItem) : SortResult :=
  match sortPhase1 child 0 with
  | (t1, m) =>
    match sortPhase2 oracle fuel (List.range m) 0 with
    | none => ⟨t1, .outOfFuel⟩
    | some p2 =>
      match if m = 0 then some (([] : List SortEvent), p2.2)
          else waitSuspends oracle fuel p2.2 with
      | none => ⟨t1 ++ p2.1, .outOfFuel⟩
      | some p3 =>
        match waitSuspends oracle fuel p3.2 with
        | none => ⟨t1 ++ p2.1 ++ p3.1
            ++ [SortEvent.boundariesTask (List.range m) info.numPartitions
                  info.sortBy info.descending], .outOfFuel⟩
        | some p5 =>
          match sortPhase6 oracle fuel info m p5.2 with
          | (t6, status) =>
            ⟨t1 ++ p2.1 ++ p3.1
              ++ SortEvent.boundariesTask (List.range m) info.numPartitions
                  info.sortBy info.descending
                :: (p5.1 ++ t6), status⟩

/-- The ReduceToQuantiles reduce tasks in the trace: their sample input lists
and quantile counts. -/
def boundariesOf (tr : List SortEvent) : List (List Nat × Nat) :=
  tr.filterMap fun
    | .boundariesTask s q _ _ => some (s, q)
    | _ => none

/-- The sources sampled by the Sample tasks of the trace, in order. -/
def samplesOf (tr : List SortEvent) : List Nat :=
  tr.filterMap fun
    | .sampleTask s => some s
    | _ => none

theorem sortPhase1_snd (child : List ChildItem) : ∀ i,
    (sortPhase1 child i).2 = i + builderCount child := by
  induction child with
  | nil =>
    intro i
    simp [sortPhase1, builderCount]
  | cons c rest ih =>
    intro i
    cases c with
    | builder r =>
      simp only [sortPhase1]
      rw [ih (i + 1), builderCount_cons_builder]
      omega
    | other =>
      simp only [sortPhase1]
      rw [ih i, builderCount_cons_other]

theorem samplesOf_append (a b : List SortEvent) :
    samplesOf (a ++ b) = samplesOf a ++ samplesOf b := by
  simp [samplesOf, List.filterMap_append]

theorem boundariesOf_append (a b : List SortEvent) :
    boundariesOf (a ++ b) = boundariesOf a ++ boundariesOf b := by
  simp [boundariesOf, List.filterMap_append]

theorem sortPhase1_no_samples (child : List ChildItem) : ∀ i,
    samplesOf (sortPhase1 child i).1 = []
      ∧ boundariesOf (sortPhase1 child i).1 = [] := by
  induction child with
  | nil =>
    intro i
    simp [sortPhase1, samplesOf, boundariesOf]
  | cons c rest ih =>
    intro i
    cases c with
    | builder r =>
      simp only [sortPhase1]
      constructor
      · simpa [samplesOf, List.filterMap_cons] using (ih (i + 1)).1
      · simpa [boundariesOf, List.filterMap_cons] using (ih (i + 1)).2
    | other =>
      simp only [sortPhase1]
      constructor
      · simpa [samplesOf, List.filterMap_cons] using (ih i).1
      · simpa [boundariesOf, List.filterMap_cons] using (ih i).2

theorem samplesOf_replicate_suspend (k : Nat) :
    samplesOf (List.replicate k SortEvent.suspendEvent) = [] := by
  induction k with
  | zero => rfl
  | succ k ih =>
    rw [List.replicate_succ]
    simpa [samplesOf, List.filterMap_cons] using ih

theorem boundariesOf_replicate_suspend (k : Nat) :
    boundariesOf (List.replicate k SortEvent.suspendEvent) = [] := by
  induction k with
  | zero => rfl
  | succ k ih =>
    rw [List.replicate_succ]
    simpa [boundariesOf, List.filterMap_cons] using ih

theorem waitSuspends_shape (oracle : Nat → Bool) :
    ∀ (fuel clock : Nat) (p : List SortEvent × Nat),
    waitSuspends oracle fuel clock = some p →
    ∃ k, p.1 = List.replicate k SortEvent.suspendEvent := by
  intro fuel
  induction fuel with
  | zero =>
    intro clock p h
    simp [waitSuspends] at h
  | succ fuel ih =>
    intro clock p h
    simp only [waitSuspends] at h
    by_cases ho : oracle clock = true
    · rw [if_pos ho] at h
      cases h
      exact ⟨0, rfl⟩
    · rw [if_neg ho] at h
      cases hw : waitSuspends oracle fuel (clock + 1) with
      | none =>
        rw [hw] at h
        exact absurd h (by simp)
      | some q =>
        rw [hw] at h
        cases h
        obtain ⟨k, hk⟩ := ih (clock + 1) q hw
        exact ⟨k + 1, by simp [List.replicate_succ, hk]⟩

theorem samplesOf_cons_sampleTask (s : Nat) (tr : List SortEvent) :
    samplesOf (SortEvent.sampleTask s :: tr) = s :: samplesOf tr := by
  simp [samplesOf, List.filterMap_cons]

theorem boundariesOf_cons_sampleTask (s : Nat) (tr : List SortEvent) :
    boundariesOf (SortEvent.sampleTask s :: tr) = boundariesOf tr := by
  simp [boundariesOf, List.filterMap_cons]

theorem sortPhase2_shape (oracle : Nat → Bool) (fuel : Nat) :
    ∀ (js : List Nat) (clock : Nat) (p : List SortEvent × Nat),
    sortPhase2 oracle fuel js clock = some p →
    samplesOf p.1 = js ∧ boundariesOf p.1 = [] := by
  intro js
  induction js with
  | nil =>
    intro clock p h
    simp only [sortPhase2] at h
    cases h
    simp [samplesOf, boundariesOf]
  | cons j rest ih =>
    intro clock p h
    simp only [sortPhase2] at h
    cases hw : waitSuspends oracle fuel clock with
    | none =>
      rw [hw] at h
      exact absurd h (by simp)
    | some w =>
      simp only [hw] at h
      cases hq : sortPhase2 oracle fuel rest w.2 with
      | none =>
        simp only [hq] at h
        exact absurd h (by simp)
      | some q =>
        simp only [hq] at h
        cases h
        obtain ⟨k, hk⟩ := waitSuspends_shape oracle fuel clock w hw
        obtain ⟨hs, hb⟩ := ih w.2 q hq
        constructor
        · rw [samplesOf_append, hk, samplesOf_replicate_suspend,
            samplesOf_cons_sampleTask, hs, List.nil_append]
        · rw [boundariesOf_append, hk, boundariesOf_replicate_suspend,
            boundariesOf_cons_sampleTask, hb, List.nil_append]

theorem fanouts_no_samples (n : Nat) (l : List Nat) :
    samplesOf (l.map fun j => SortEvent.fanoutTask j n) = []
      ∧ boundariesOf (l.map fun j => SortEvent.fanoutTask j n) = [] := by
  induction l with
  | nil => simp [samplesOf, boundariesOf]
  | cons x l ih =>
    simp only [List.map_cons]
    constructor
    · simpa [samplesOf, List.filterMap_cons] using ih.1
    · simpa [boundariesOf, List.filterMap_cons] using ih.2

theorem reduces_no_samples (m : Nat) (l : List Nat) :
    samplesOf (l.map fun i => SortEvent.reduceTask i m) = []
      ∧ boundariesOf (l.map fun i => SortEvent.reduceTask i m) = [] := by
  induction l with
  | nil => simp [samplesOf, boundariesOf]
  | cons x l ih =>
    simp only [List.map_cons]
    constructor
    · simpa [samplesOf, List.filterMap_cons] using ih.1
    · simpa [boundariesOf, List.filterMap_cons] using ih.2

theorem sortPhase6_shape (oracle : Nat → Bool) (fuel : Nat) (info : SortInfo)
    (m clock : Nat)
    (hfin : (sortPhase6 oracle fuel info m clock).2 = .finished) :
    ∃ rest, (sortPhase6 oracle fuel info m clock).1
        = SortEvent.fanoutTask 0 info.numPartitions :: rest ∧
      samplesOf (sortPhase6 oracle fuel info m clock).1 = [] ∧
      boundariesOf (sortPhase6 oracle fuel info m clock).1 = [] := by
  cases m with
  | zero => simp [sortPhase6] at hfin
  | succ mp =>
    simp only [sortPhase6] at hfin ⊢
    cases hw : waitSuspends oracle fuel clock with
    | none =>
      simp only [hw] at hfin
      exact absurd hfin (by simp)
    | some p =>
      simp only [hw] at hfin ⊢
      obtain ⟨k, hk⟩ := waitSuspends_shape oracle fuel clock p hw
      refine ⟨((List.range mp).map Nat.succ).map
          (fun j => SortEvent.fanoutTask j info.numPartitions)
        ++ p.1 ++ (List.range info.numPartitions).map
            (fun i => SortEvent.reduceTask i (mp + 1)), ?_, ?_, ?_⟩
      · rw [List.range_succ_eq_map, List.map_cons, List.cons_append,
          List.cons_append]
      · rw [samplesOf_append, samplesOf_append,
          (fanouts_no_samples info.numPartitions _).1,
          (reduces_no_samples (mp + 1) _).1, hk,
          samplesOf_replicate_suspend]
        rfl
      · rw [boundariesOf_append, boundariesOf_append,
          (fanouts_no_samples info.numPartitions _).2,
          (reduces_no_samples (mp + 1) _).2, hk,
          boundariesOf_replicate_suspend]
        rfl

theorem boundariesOf_cons_boundariesTask (s : List Nat) (q : Nat)
    (sb : List Nat) (d : List Bool) (tr : List SortEvent) :
    boundariesOf (SortEvent.boundariesTask s q sb d :: tr)
      = (s, q) :: boundariesOf tr := by
  simp [boundariesOf, List.filterMap_cons]

theorem samplesOf_cons_boundariesTask (s : List Nat) (q : Nat)
    (sb : List Nat) (d : List Bool) (tr : List SortEvent) :
    samplesOf (SortEvent.boundariesTask s q sb d :: tr) = samplesOf tr := by
  simp [samplesOf, List.filterMap_cons]

/-- C3 amended (the source passes num_partitions, not num_partitions - 1, as
the quantile count): in every finished sort run, under every completion
schedule, all per-source Sample tasks are emitted before the boundaries
step; the boundaries step is the single ReduceToQuantiles reduce task of the
run, taken over all sample outputs, and its quantile count equals
num_partitions; and from the boundaries task the generator yields only
Suspend until the next real step, the first range-fanout task. -/
theorem c3_sort_boundaries (oracle : Nat → Bool) (fuel : Nat)
    (info : SortInfo) (child : List ChildItem)
    (hfin : (sortPlan oracle fuel info child).status = .finished) :
    ∃ pre k rest,
      (sortPlan oracle fuel info child).trace
        = pre ++ SortEvent.boundariesTask (List.range (builderCount child))
              info.numPartitions info.sortBy info.descending
            :: (List.replicate k SortEvent.suspendEvent
                ++ SortEvent.fanoutTask 0 info.numPartitions :: rest) ∧
      boundariesOf (sortPlan oracle fuel info child).trace
        = [(List.range (builderCount child), info.numPartitions)] ∧
      samplesOf pre = List.range (builderCount child) ∧
      samplesOf (List.replicate k SortEvent.suspendEvent
          ++ SortEvent.fanoutTask 0 info.numPartitions :: rest) = [] := by
  have hm := sortPhase1_snd child 0
  unfold sortPlan at hfin ⊢
  cases hp1 : sortPhase1 child 0 with
  | mk t1 m =>
    rw [hp1] at hm
    simp only [Nat.zero_add] at hm
    simp only [hp1] at hfin ⊢
    cases hp2 : sortPhase2 oracle fuel (List.range m) 0 with
    | none =>
      simp only [hp2] at hfin
      exact absurd hfin (by simp)
    | some p2 =>
      simp only [hp2] at hfin ⊢
      by_cases hm0 : m = 0
      · exfalso
        simp only [hm0, eq_self_iff_true, if_true] at hfin
        cases hw5 : waitSuspends oracle fuel p2.2 with
        | none =>
          simp only [hw5] at hfin
          exact absurd hfin (by simp)
        | some p5 =>
          simp only [hw5, sortPhase6] at hfin
          exact absurd hfin (by simp)
      · simp only [if_neg hm0] at hfin ⊢
        cases hw3 : waitSuspends oracle fuel p2.2 with
        | none =>
          simp only [hw3] at hfin
          exact absurd hfin (by simp)
        | some p3 =>
          simp only [hw3] at hfin ⊢
          cases hw5 : waitSuspends oracle fuel p3.2 with
          | none =>
            simp only [hw5] at hfin
            exact absurd hfin (by simp)
          | some p5 =>
            simp only [hw5] at hfin ⊢
            cases hp6 : sortPhase6 oracle fuel info m p5.2 with
            | mk t6 st6 =>
              simp only [hp6] at hfin ⊢
              obtain ⟨rest6, hrest6, hs6, hb6⟩ :=
                sortPhase6_shape oracle fuel info m p5.2 (by rw [hp6]; exact hfin)
              rw [hp6] at hrest6 hs6 hb6
              simp only at hrest6 hs6 hb6
              obtain ⟨hs1, hb1⟩ := sortPhase1_no_samples child 0
              rw [hp1] at hs1 hb1
              simp only at hs1 hb1
              obtain ⟨hs2, hb2⟩ :=
                sortPhase2_shape oracle fuel (List.range m) 0 p2 hp2
              obtain ⟨k3, hk3⟩ := waitSuspends_shape oracle fuel p2.2 p3 hw3
              obtain ⟨k5, hk5⟩ := waitSuspends_shape oracle fuel p3.2 p5 hw5
              refine ⟨t1 ++ p2.1 ++ p3.1, k5, rest6, ?_, ?_, ?_, ?_⟩
              · rw [hk5, hrest6, ← hm]
              · rw [boundariesOf_append, boundariesOf_append,
                  boundariesOf_append, hb1, hb2, hk3,
                  boundariesOf_replicate_suspend,
                  boundariesOf_cons_boundariesTask, boundariesOf_append,
                  hk5, boundariesOf_replicate_suspend, hb6, ← hm]
                simp
              · rw [samplesOf_append, samplesOf_append, hs1, hs2, hk3,
                  samplesOf_replicate_suspend, ← hm]
                simp
              · rw [← hrest6, samplesOf_append,
                  samplesOf_replicate_suspend, hs6]
                simp

/-- C3 counterexample: for a sort into num_partitions = 2 over two source
partitions, the boundaries reduce task carries ReduceToQuantiles with
quantile count 2 (equal to num_partitions), not num_partitions - 1 = 1 as
the claim states. -/
theorem c3_counterexample :
    boundariesOf (sortPlan (fun _ => true) 10 ⟨2, [0], [false]⟩
        [ChildItem.builder 1, ChildItem.builder 1]).trace = [([0, 1], 2)] ∧
    boundariesOf (sortPlan (fun _ => true) 10 ⟨2, [0], [false]⟩
        [ChildItem.builder 1, ChildItem.builder 1]).trace
      ≠ [([0, 1], 2 - 1)] := by
  constructor
  · decide
  · decide

/-- Witness for amended C3: a finished concrete sort run whose boundaries
task takes both sample outputs with quantile count equal to
num_partitions = 2. -/
theorem c3_sort_boundaries_witness :
    (sortPlan (fun _ => true) 10 ⟨2, [0], [false]⟩
        [ChildItem.builder 1, ChildItem.builder 1]).status
      = SortStatus.finished ∧
    boundariesOf (sortPlan (fun _ => true) 10 ⟨2, [0], [false]⟩
        [ChildItem.builder 1, ChildItem.builder 1]).trace = [([0, 1], 2)] := by
  constructor
  · decide
  · obtain ⟨pre, k, rest, -, hb, -, -⟩ :=
      c3_sort_boundaries (fun _ => true) 10 ⟨2, [0], [false]⟩
        [ChildItem.builder 1, ChildItem.builder 1] (by decide)
    rw [hb]
    decide

/-! ## Logical plan model and optimizer rules (optimizer.py)

The logical plan node classes, partition specs and expression lists are
declared outside the sources at hand; their data model is modelled from the
spec: a partition spec is a scheme with its keys plus a partition count; a
plan node carries a resolved output schema of stable column ids; a filter
predicate is a list of conjuncts, each knowing the column ids it requires.
The rule bodies below are transcribed from optimizer.py. -/

inductive PartitionScheme where
  | unknown
  | hash
  | range
  | random
  | replicate
deriving DecidableEq

/-- Modelled from the spec: partition spec = scheme (with keys) and
num_partitions. -/
structure PartitionSpec where
  scheme : PartitionScheme
  partitionBy : List Nat
  numPartitions : Nat
deriving DecidableEq

/-- A predicate conjunct: an identifying tag and the column ids it
requires. -/
structure PredConj where
  tag : Nat
  required : List Nat
deriving DecidableEq

inductive LogicalPlan where
  | scan (schemaIds : List Nat) (spec : PartitionSpec)
  | filterNode (predicate : List PredConj) (child : LogicalPlan)
  | joinNode (spec : PartitionSpec) (leftOn rightOn : List Nat)
      (left right : LogicalPlan)
  | repartitionNode (partitionBy : List Nat) (numPartitions : Nat)
      (scheme : PartitionScheme) (child : LogicalPlan)
deriving DecidableEq

/-- The resolved output schema's column ids (schema().to_id_set(), kept as a
list). -/
def LogicalPlan.schemaIdsOf : LogicalPlan → List Nat
  | .scan s _ => s
  | .filterNode _ c => c.schemaIdsOf
  | .joinNode _ _ _ l r => l.schemaIdsOf ++ r.schemaIdsOf
  | .repartitionNode _ _ _ c => c.schemaIdsOf

def LogicalPlan.partitionSpecOf : LogicalPlan → PartitionSpec
  | .scan _ sp => sp
  | .filterNode _ c => c.partitionSpecOf
  | .joinNode sp _ _ _ _ => sp
  | .repartitionNode pb np sc _ => ⟨sc, pb, np⟩

def LogicalPlan.numPartitionsOf (p : LogicalPlan) : Nat :=
  p.partitionSpecOf.numPartitions

/-- Embedding of DropRepartition._drop_repartition_if_same_spec: drop the
Repartition when its partition spec equals its child's and the scheme is not
RANGE, or when parent and child both have exactly one partition. -/
def drop_repartition_if_same_spec : LogicalPlan → Option LogicalPlan
  | .repartitionNode pb np sc child =>
      if ((LogicalPlan.repartitionNode pb np sc child).partitionSpecOf
            = child.partitionSpecOf
          ∧ (LogicalPlan.repartitionNode pb np sc
              child).partitionSpecOf.scheme ≠ .range)
        ∨ ((LogicalPlan.repartitionNode pb np sc child).numPartitionsOf = 1
          ∧ child.numPartitionsOf = 1)
      then some child
      else none
  | _ => none

/-- Embedding of DropRepartition._drop_double_repartition: collapse
Repartition(Repartition(X)) into the outer Repartition applied directly to
X. -/
def drop_double_repartition : LogicalPlan → Option LogicalPlan
  | .repartitionNode pb np sc (.repartitionNode _ _ _ grandchild) =>
      some (.repartitionNode pb np sc grandchild)
  | _ => none

/-- C5 counterexample: a RANGE Repartition to one partition over a
one-partition child whose spec differs is elided by the rule (both sides
have exactly one partition), although the claim states a RANGE Repartition
is never elided. -/
theorem c5_counterexample :
    drop_repartition_if_same_spec
        (.repartitionNode [0] 1 .range (.scan [0] ⟨.hash, [0], 1⟩))
      = some (.scan [0] ⟨.hash, [0], 1⟩) ∧
    (LogicalPlan.repartitionNode [0] 1 .range
        (.scan [0] ⟨.hash, [0], 1⟩)).partitionSpecOf.scheme
      = PartitionScheme.range := by
  constructor
  · decide
  · rfl

/-- C5 amended: the rule removes a Repartition node exactly when its
partition spec equals its child's spec and its scheme is not RANGE, or when
parent and child both have exactly one partition (in which case even a RANGE
Repartition is elided); and it collapses Repartition(Repartition(X)) into
the outer Repartition applied directly to X. -/
theorem c5_drop_repartition :
    (∀ (pb : List Nat) (np : Nat) (sc : PartitionScheme)
        (child : LogicalPlan) (q : LogicalPlan),
      drop_repartition_if_same_spec (.repartitionNode pb np sc child)
          = some q ↔
        q = child ∧
          ((PartitionSpec.mk sc pb np = child.partitionSpecOf ∧ sc ≠ .range)
            ∨ (np = 1 ∧ child.numPartitionsOf = 1))) ∧
    (∀ (pb : List Nat) (np : Nat) (sc : PartitionScheme) (pb2 : List Nat)
        (np2 : Nat) (sc2 : PartitionScheme) (gc : LogicalPlan),
      drop_double_repartition
          (.repartitionNode pb np sc (.repartitionNode pb2 np2 sc2 gc))
        = some (.repartitionNode pb np sc gc)) := by
  constructor
  · intro pb np sc child q
    unfold drop_repartition_if_same_spec
    simp only [LogicalPlan.partitionSpecOf, LogicalPlan.numPartitionsOf]
    split_ifs with h
    · simp only [Option.some_inj]
      constructor
      · intro hq
        exact ⟨hq.symm, h⟩
      · intro hq
        exact hq.1.symm
    · constructor
      · intro hq
        exact absurd hq (by simp)
      · intro hq
        exact absurd hq.2 h
  · intro pb np sc pb2 np2 sc2 gc
    rfl

/-- Witness for amended C5 at concrete inputs: a HASH Repartition whose spec
equals its child's is dropped, and a RANGE Repartition over a child with an
equal spec is kept when the partition counts are not 1. -/
theorem c5_drop_repartition_witness :
    drop_repartition_if_same_spec
        (.repartitionNode [0] 2 .hash (.scan [0] ⟨.hash, [0], 2⟩))
      = some (.scan [0] ⟨.hash, [0], 2⟩) ∧
    ¬ (drop_repartition_if_same_spec
        (.repartitionNode [0] 2 .range (.scan [0] ⟨.range, [0], 2⟩))
      = some (.scan [0] ⟨.range, [0], 2⟩)) := by
  constructor
  · exact (c5_drop_repartition.1 [0] 2 .hash (.scan [0] ⟨.hash, [0], 2⟩)
      (.scan [0] ⟨.hash, [0], 2⟩)).2 ⟨rfl, Or.inl ⟨rfl, by decide⟩⟩
  · intro h
    have := (c5_drop_repartition.1 [0] 2 .range (.scan [0] ⟨.range, [0], 2⟩)
      (.scan [0] ⟨.range, [0], 2⟩)).1 h
    rcases this.2 with ⟨-, hne⟩ | ⟨h1, -⟩
    · exact hne rfl
    · exact absurd h1 (by decide)

/-- Whether every required column id occurs among the given schema ids
(id_set.issubset on id sets, with sets kept as lists). -/
def idSubset (xs ys : List Nat) : Bool := xs.all fun x => ys.contains x

/-- Embedding of the conjunct-routing loop of
PushDownPredicates._filter_through_join: iterate the conjuncts in order; a
conjunct whose required ids are a subset of the left schema's ids goes to
the left push-down list; otherwise, when a subset of the right schema's ids,
to the right push-down list; otherwise it cannot be pushed down.  Returns
(can_not_push_down, left_push_down, right_push_down). -/
def filter_through_join_route (leftIds rightIds : List Nat) :
    List PredConj → List PredConj × List PredConj × List PredConj
  | [] => ([], [], [])
  | p :: rest =>
    let r := filter_through_join_route leftIds rightIds rest
    if idSubset p.required leftIds then (r.1, p :: r.2.1, r.2.2)
    else if idSubset p.required rightIds then (r.1, r.2.1, p :: r.2.2)
    else (p :: r.1, r.2.1, r.2.2)

/-- Embedding of PushDownPredicates._filter_through_join: route the filter's
conjuncts, return no change when neither side receives any, otherwise wrap
each side that received conjuncts in a Filter, rebuild the join, and keep
any unpushable conjuncts in a Filter above it. -/
def filter_through_join (predicate : List PredConj) :
    LogicalPlan → Option LogicalPlan
  | .joinNode sp lOn rOn left right =>
    let r := filter_through_join_route left.schemaIdsOf right.schemaIdsOf
      predicate
    if r.2.1 = [] ∧ r.2.2 = [] then none
    else
      let newLeft := if r.2.1 = [] then left else .filterNode r.2.1 left
      let newRight := if r.2.2 = [] then right else .filterNode r.2.2 right
      let newJoin := LogicalPlan.joinNode sp lOn rOn newLeft newRight
      if r.1 = [] then some newJoin else some (.filterNode r.1 newJoin)
  | _ => none

/-- Modelled from the spec claim wording (C6): every conjunct whose required
ids are a subset of the left schema's ids is moved into a Filter over the
left child, every conjunct whose required ids are a subset of the right
schema's ids is moved into a Filter over the right child, and the remaining
conjuncts stay above the join. -/
def claimed_filter_through_join (predicate : List PredConj) :
    LogicalPlan → Option LogicalPlan
  | .joinNode sp lOn rOn left right =>
    let lp := predicate.filter fun p => idSubset p.required left.schemaIdsOf
    let rp := predicate.filter fun p => idSubset p.required right.schemaIdsOf
    let cn := predicate.filter fun p =>
      !(idSubset p.required left.schemaIdsOf)
        && !(idSubset p.required right.schemaIdsOf)
    if lp = [] ∧ rp = [] then none
    else
      let newLeft := if lp = [] then left else .filterNode lp left
      let newRight := if rp = [] then right else .filterNode rp right
      let newJoin := LogicalPlan.joinNode sp lOn rOn newLeft newRight
      if cn = [] then some newJoin else some (.filterNode cn newJoin)
  | _ => none

/-- C6 counterexample: a conjunct requiring no columns (for example a
literal comparison) has a required id set that is a subset of both sides'
schema ids; the rule pushes it only to the left side, while the claim
prescribes that every conjunct whose ids are a subset of the right schema's
ids is moved into a Filter over the right child. -/
theorem c6_counterexample :
    filter_through_join [⟨0, []⟩]
        (.joinNode ⟨.unknown, [], 1⟩ [1] [3]
          (.scan [1, 2] ⟨.unknown, [], 1⟩) (.scan [3] ⟨.unknown, [], 1⟩))
      = some (.joinNode ⟨.unknown, [], 1⟩ [1] [3]
          (.filterNode [⟨0, []⟩] (.scan [1, 2] ⟨.unknown, [], 1⟩))
          (.scan [3] ⟨.unknown, [], 1⟩)) ∧
    claimed_filter_through_join [⟨0, []⟩]
        (.joinNode ⟨.unknown, [], 1⟩ [1] [3]
          (.scan [1, 2] ⟨.unknown, [], 1⟩) (.scan [3] ⟨.unknown, [], 1⟩))
      = some (.joinNode ⟨.unknown, [], 1⟩ [1] [3]
          (.filterNode [⟨0, []⟩] (.scan [1, 2] ⟨.unknown, [], 1⟩))
          (.filterNode [⟨0, []⟩] (.scan [3] ⟨.unknown, [], 1⟩))) ∧
    filter_through_join [⟨0, []⟩]
        (.joinNode ⟨.unknown, [], 1⟩ [1] [3]
          (.scan [1, 2] ⟨.unknown, [], 1⟩) (.scan [3] ⟨.unknown, [], 1⟩))
      ≠ claimed_filter_through_join [⟨0, []⟩]
        (.joinNode ⟨.unknown, [], 1⟩ [1] [3]
          (.scan [1, 2] ⟨.unknown, [], 1⟩) (.scan [3] ⟨.unknown, [], 1⟩)) := by
  refine ⟨?_, ?_, ?_⟩ <;> decide

/-- C6 amended: conjuncts whose required ids are a subset of the left
schema's ids are pushed into a Filter over the left child; of the remaining
conjuncts, those whose required ids are a subset of the right schema's ids
are pushed into a Filter over the right child; all other conjuncts stay in a
Filter above the join; if neither side receives a conjunct the rule makes no
change.  In particular Filter(a.x > 5, Join(a, b, on=a.k=b.k)) becomes
Join(Filter(a.x > 5, a), b, on=a.k=b.k). -/
theorem c6_filter_through_join :
    (∀ (leftIds rightIds : List Nat) (ps : List PredConj),
      filter_through_join_route leftIds rightIds ps
        = (ps.filter fun p => !(idSubset p.required leftIds)
              && !(idSubset p.required rightIds),
           ps.filter fun p => idSubset p.required leftIds,
           ps.filter fun p => !(idSubset p.required leftIds)
              && idSubset p.required rightIds)) ∧
    filter_through_join [⟨5, [2]⟩]
        (.joinNode ⟨.unknown, [], 1⟩ [1] [3]
          (.scan [1, 2] ⟨.unknown, [], 1⟩) (.scan [3] ⟨.unknown, [], 1⟩))
      = some (.joinNode ⟨.unknown, [], 1⟩ [1] [3]
          (.filterNode [⟨5, [2]⟩] (.scan [1, 2] ⟨.unknown, [], 1⟩))
          (.scan [3] ⟨.unknown, [], 1⟩)) := by
  constructor
  · intro leftIds rightIds ps
    induction ps with
    | nil => rfl
    | cons p rest ih =>
      by_cases hl : idSubset p.required leftIds = true
      · simp [filter_through_join_route, ih, List.filter_cons, hl]
      · by_cases hr : idSubset p.required rightIds = true
        · simp [filter_through_join_route, ih, List.filter_cons, hl, hr]
        · simp [filter_through_join_route, ih, List.filter_cons, hl, hr]
  · decide

/-- Witness for amended C6: the routing characterization applied at a
concrete predicate list with a both-sides conjunct, a left-only conjunct and
an unpushable conjunct. -/
theorem c6_filter_through_join_witness :
    filter_through_join_route [1, 2] [3]
        [⟨0, []⟩, ⟨1, [2]⟩, ⟨2, [3]⟩, ⟨3, [2, 3]⟩]
      = ([⟨3, [2, 3]⟩], [⟨0, []⟩, ⟨1, [2]⟩], [⟨2, [3]⟩]) := by
  rw [c6_filter_through_join.1 [1, 2] [3]
    [⟨0, []⟩, ⟨1, [2]⟩, ⟨2, [3]⟩, ⟨3, [2, 3]⟩]]
  decide
